import Mathlib

/-!
Verification of the `Random` generator of `src/random.h` (contest-tools).

The C++ source is shallowly embedded: 32/64-bit unsigned machine words are
represented as `Nat` with explicit `% 2^32` / `% 2^64` where the C++
arithmetic can wrap, thrown exceptions become explicit error results that
carry the state of the object at the moment of the throw, and the two
source-level loops that are not structurally bounded (`while` in
`Random::bits`, `for(;;)` in `Random::uniform_uint64`) take an explicit
fuel argument (for `bits` the fuel `n + 2` is provably sufficient; the
rejection loop of `uniform_uint64` genuinely need not terminate on an
adversarial keystream, so its theorems quantify over the fuel).
-/

namespace random_private

/-- Errors thrown by the C++ code: `std::invalid_argument` and
`std::runtime_error`, with the message string. -/
inductive Err where
  | invalidArgument : String → Err
  | runtimeError : String → Err
deriving DecidableEq, Repr

/-- State of a `Random` object (the member variables of class `Random`). -/
structure RandomState where
  nonce : Nat
  counter : Nat
  wordBuffer : List Nat
  wordBufferNext : Nat
  bitsBuffer : Nat
  numBits : Nat
  numberBuffer : Nat
  numberRange : Nat
deriving DecidableEq, Repr

/-- Result of running a member function on a `RandomState`: normal return
with a value and the new state, an exception carrying the state of the
object at the moment of the throw, or fuel exhaustion (the modelled loop
was still running). -/
inductive Res (α : Type) where
  | ok : α → RandomState → Res α
  | exc : Err → RandomState → Res α
  | timeout : Res α
deriving DecidableEq, Repr

/-- `rotate_left<bits>(x)` from random.h: 32-bit left rotation. -/
def rotate_left (b x : Nat) : Nat :=
  ((x <<< b) ||| (x >>> (32 - b))) % 2 ^ 32

/-- `quarter_round(a, b, c, d)` from random.h; all additions are uint32,
hence `% 2^32`. -/
def quarter_round (a b c d : Nat) : Nat × Nat × Nat × Nat :=
  let a := (a + b) % 2 ^ 32
  let d := rotate_left 16 (d ^^^ a)
  let c := (c + d) % 2 ^ 32
  let b := rotate_left 12 (b ^^^ c)
  let a := (a + b) % 2 ^ 32
  let d := rotate_left 8 (d ^^^ a)
  let c := (c + d) % 2 ^ 32
  let b := rotate_left 7 (b ^^^ c)
  (a, b, c, d)

/-- One double round of `chacha<rounds>`: the quarter round applied to the
four columns, then to the four diagonals. -/
def doubleRound : List Nat → List Nat
  | [x0, x1, x2, x3, x4, x5, x6, x7, x8, x9, x10, x11, x12, x13, x14, x15] =>
    let (x0, x4, x8, x12) := quarter_round x0 x4 x8 x12
    let (x1, x5, x9, x13) := quarter_round x1 x5 x9 x13
    let (x2, x6, x10, x14) := quarter_round x2 x6 x10 x14
    let (x3, x7, x11, x15) := quarter_round x3 x7 x11 x15
    let (x0, x5, x10, x15) := quarter_round x0 x5 x10 x15
    let (x1, x6, x11, x12) := quarter_round x1 x6 x11 x12
    let (x2, x7, x8, x13) := quarter_round x2 x7 x8 x13
    let (x3, x4, x9, x14) := quarter_round x3 x4 x9 x14
    [x0, x1, x2, x3, x4, x5, x6, x7, x8, x9, x10, x11, x12, x13, x14, x15]
  | l => l

/-- `chacha<rounds>(key, nonce, counter)` from random.h.  The input block is
the four ASCII constants, the eight key words, the counter (low word then
high word) and the nonce (low word then high word); `rounds / 2` double
rounds are applied and the input block is added back word-wise mod 2^32. -/
def chacha (rounds : Nat) (key : List Nat) (nonce counter : Nat) : List Nat :=
  let input : List Nat :=
    [0x61707865, 0x3320646e, 0x79622d32, 0x6b206574] ++ key ++
    [counter % 2 ^ 32, (counter >>> 32) % 2 ^ 32,
     nonce % 2 ^ 32, (nonce >>> 32) % 2 ^ 32]
  let x := doubleRound^[rounds / 2] input
  List.zipWith (fun a b => (a + b) % 2 ^ 32) x input

/-- The hardcoded per-contest `key` constant of random.h. -/
def key : List Nat :=
  [0xD2EE7398, 0xC1963D5C, 0xAA54D7C8, 0x5DA5A588,
   0x7391688F, 0x3BE114E4, 0x07DFCCA9, 0x5053BCBC]

/-- The member-initialiser state of a fresh `Random` object with the given
nonce: `m_counter = 0`, `m_word_buffer = {}` (value-initialised to zeros),
`m_word_buffer_next = 16`, `m_bits_buffer = 0`, `m_num_bits = 0`,
`m_number_buffer = 0`, `m_number_range = 1`. -/
def initState (nonce : Nat) : RandomState :=
  { nonce := nonce
    counter := 0
    wordBuffer := List.replicate 16 0
    wordBufferNext := 16
    bitsBuffer := 0
    numBits := 0
    numberBuffer := 0
    numberRange := 1 }

/-- The nonce-building loop of the `Random` constructor: starting from
`m_nonce = test_id`, each byte of the problem name (`static_cast<uint8_t>`,
hence `% 256`) at index `i` is checked against 0 and ORed in shifted left
by `4 + i` bits. -/
def mkNonce : List Nat → Nat → Nat → Except Err Nat
  | [], _, acc => .ok acc
  | b :: rest, i, acc =>
    if b % 256 = 0 then .error (.invalidArgument "0 bytes in problem_name")
    else mkNonce rest (i + 1) (acc ||| ((b % 256) <<< (4 + i)))

/-- `Random::Random(problem_name, test_id)`: rejects names longer than 4
bytes, then builds the nonce byte by byte (rejecting zero bytes). The
problem name is the list of its char values and `test_id` is a uint32. -/
def mkRandom (problem_name : List Nat) (test_id : Nat) : Except Err RandomState :=
  if problem_name.length > 4 then .error (.invalidArgument "problem_name too long")
  else (mkNonce problem_name 0 (test_id % 2 ^ 32)).map initState

/-- The word-refill step inside `Random::bits`: when all 16 words of the
current block are consumed, generate a new block with `chacha<20>` at the
current counter and post-increment the counter (uint64, hence `% 2^64`);
if the counter wrapped to 0 a `runtime_error` is thrown, with the buffer
and counter already updated (the C++ assignments precede the throw). -/
def refillWords (s : RandomState) : Except (Err × RandomState) RandomState :=
  if s.wordBufferNext = 16 then
    let s' := { s with wordBuffer := chacha 20 key s.nonce s.counter
                       counter := (s.counter + 1) % 2 ^ 64
                       wordBufferNext := 0 }
    if s'.counter = 0 then .error (.runtimeError "Random counter overflow", s')
    else .ok s'
  else .ok s

/-- The word-load step of `Random::bits` after a (possible) refill:
`m_bits_buffer = m_word_buffer[m_word_buffer_next++]; m_num_bits = 32`. -/
def loadWord (s : RandomState) : RandomState :=
  { s with bitsBuffer := s.wordBuffer.getD s.wordBufferNext 0
           wordBufferNext := s.wordBufferNext + 1
           numBits := 32 }

/-- The `while (n >= m_num_bits)` loop of `Random::bits`, with fuel.  Each
iteration shifts the currently buffered bits into the accumulated result
(uint64 shifts, hence `% 2^64`), refills the word buffer if needed and
loads the next 32-bit word; once `n < m_num_bits` the low `n` bits of the
buffer are appended and the call returns. -/
def bitsGo : Nat → Nat → Nat → RandomState → Res Nat
  | 0, _, _, _ => .timeout
  | fuel + 1, n, result, s =>
    if s.numBits ≤ n then
      match refillWords s with
      | .error (e, s') => .exc e s'
      | .ok s' =>
        bitsGo fuel (n - s.numBits) (((result <<< s.numBits) % 2 ^ 64) ||| s.bitsBuffer)
          (loadWord s')
    else
      .ok (((result <<< n) % 2 ^ 64) ||| (s.bitsBuffer &&& ((1 <<< n) - 1)))
        { s with bitsBuffer := s.bitsBuffer >>> n
                 numBits := s.numBits - n }

/-- `Random::bits(n)`: throws `invalid_argument` for `n > 64` (before any
state change), otherwise runs the loop.  Fuel `n + 2` is provably
sufficient (the loop runs at most `n / 32 + 2` iterations). -/
def bits (n : Nat) (s : RandomState) : Res Nat :=
  if 64 < n then .exc (.invalidArgument "n > 64") s
  else bitsGo (n + 2) n 0 s

/-- Number of significant binary digits of `x` (that is `⌊log2 x⌋ + 1` for
`x ≥ 1`), computed by structural recursion on a fuel so that it reduces
inside the kernel; fuel 64 is exact for every uint64 value. -/
def bit_length : Nat → Nat → Nat
  | 0, _ => 0
  | fuel + 1, x => if x = 0 then 0 else bit_length fuel (x / 2) + 1

/-- `__builtin_clzll` on a nonzero uint64: the number of leading zero bits,
`63 - ⌊log2 x⌋`.  (For 0 the C++ builtin is undefined; this model returns
64, and the invariant `m_number_range ≥ 1` proves the case never arises.) -/
def clz64 (x : Nat) : Nat := 64 - bit_length 64 x

/-- The `for (;;)` rejection loop of `Random::uniform_uint64`, with fuel
(the loop has no a-priori iteration bound).  Each iteration tops up
`m_number_range` / `m_number_buffer` to full 64-bit precision (the two
shifts happen before `bits` is called, matching the C++ statement order),
splits `[0, range)` into groups of size `n`, and either accepts (returning
`min + in_group` and retaining the group index as fresh sampler state) or
rejects (retaining the partial group). -/
def uniformLoop : Nat → Nat → Nat → RandomState → Res Nat
  | 0, _, _, _ => .timeout
  | fuel + 1, n, min, s =>
    let zeros := clz64 s.numberRange
    let s₁ := { s with numberRange := (s.numberRange <<< zeros) % 2 ^ 64
                       numberBuffer := (s.numberBuffer <<< zeros) % 2 ^ 64 }
    match bits zeros s₁ with
    | .exc e s' => .exc e s'
    | .timeout => .timeout
    | .ok b s₂ =>
      let s₃ := { s₂ with numberBuffer := s₂.numberBuffer ||| b }
      let numGroups := s₃.numberRange / n
      let smallGroup := s₃.numberRange % n
      let group := s₃.numberBuffer / n
      let inGroup := s₃.numberBuffer % n
      if group < numGroups then
        .ok ((min + inGroup) % 2 ^ 64)
          { s₃ with numberRange := numGroups, numberBuffer := group }
      else
        uniformLoop fuel n min
          { s₃ with numberRange := smallGroup, numberBuffer := inGroup }

/-- `Random::uniform_uint64(min, max)`: throws `invalid_argument` if
`min > max`, returns `bits(64)` for the full 64-bit range, and otherwise
runs the entropy-recycling rejection loop with `n = max - min + 1`. -/
def uniform_uint64 (fuel : Nat) (min max : Nat) (s : RandomState) : Res Nat :=
  if min > max then .exc (.invalidArgument "min > max") s
  else if min = 0 ∧ max = 2 ^ 64 - 1 then bits 64 s
  else uniformLoop fuel (max - min + 1) min s

/-- Map over the value of a `Res`. -/
def Res.map (f : α → β) : Res α → Res β
  | .ok a s => .ok (f a) s
  | .exc e s => .exc e s
  | .timeout => .timeout

/-- uint64 → int64 conversion (two's complement reinterpretation). -/
def toI64 (x : Nat) : Int :=
  if x < 2 ^ 63 then (x : Int) else (x : Int) - 2 ^ 64

/-- int64 → uint64 conversion (value mod 2^64). -/
def toU64 (x : Int) : Nat := (x % 2 ^ 64).toNat

/-- `Random::uniform_int64(min, max)`: checks `min > max` (signed), then
delegates to `uniform_uint64(0, (uint64)max - (uint64)min)` and adds
`(uint64)min` back, reinterpreting the uint64 result as int64. -/
def uniform_int64 (fuel : Nat) (min max : Int) (s : RandomState) : Res Int :=
  if min > max then .exc (.invalidArgument "min > max") s
  else
    (uniform_uint64 fuel 0 ((toU64 max + 2 ^ 64 - toU64 min) % 2 ^ 64) s).map
      (fun v => toI64 ((v + toU64 min) % 2 ^ 64))

/-- `Random::uniform_uint(min, max)`: uint32 arguments widen exactly to
uint64; the uint64 result is truncated back to uint32. -/
def uniform_uint (fuel : Nat) (min max : Nat) (s : RandomState) : Res Nat :=
  (uniform_uint64 fuel min max s).map (· % 2 ^ 32)

/-- int64 → int32 conversion (wrap-around narrowing). -/
def toI32 (x : Int) : Int := (x + 2 ^ 31) % 2 ^ 32 - 2 ^ 31

/-- `Random::uniform_int(min, max)`: int arguments widen exactly to int64;
the int64 result is narrowed back to int. -/
def uniform_int (fuel : Nat) (min max : Int) (s : RandomState) : Res Int :=
  (uniform_int64 fuel min max s).map toI32

/-- Swap the elements at positions `i` and `j` of a list
(`std::swap(*(begin+i), *(begin+j))`). -/
def listSwap (l : List α) (i j : Nat) : List α :=
  match l.get? i, l.get? j with
  | some a, some b => (l.set i b).set j a
  | _, _ => l

/-- The loop of `Random::shuffle`: for `i` from 1 to `n - 1`, draw
`j = uniform_uint64(0, i)` and swap positions `i` and `j`.  `steps` is the
number of remaining iterations (`n - i`). -/
def shuffleGo (fuel : Nat) : Nat → Nat → List α → RandomState → Res (List α)
  | 0, _, l, s => .ok l s
  | steps + 1, i, l, s =>
    match uniform_uint64 fuel 0 i s with
    | .exc e s' => .exc e s'
    | .timeout => .timeout
    | .ok j s' => shuffleGo fuel steps (i + 1) (listSwap l i j) s'

/-- `Random::shuffle(begin, end)` on a list of length `n`: the loop body
runs for `i = 1, …, n - 1` (and not at all for `n ≤ 1`). -/
def shuffle (fuel : Nat) (l : List α) (s : RandomState) : Res (List α) :=
  shuffleGo fuel (l.length - 1) 1 l s

/-- `N` successive calls to `bits(1)`, collecting the returned bits in call
order. -/
def bitsOnes : Nat → RandomState → Res (List Nat)
  | 0, s => .ok [] s
  | n + 1, s =>
    match bits 1 s with
    | .exc e s' => .exc e s'
    | .timeout => .timeout
    | .ok b s' =>
      match bitsOnes n s' with
      | .ok bs s'' => .ok (b :: bs) s''
      | .exc e s'' => .exc e s''
      | .timeout => .timeout

/-- The `k`-th upcoming keystream bit of a state: the bits still held in
`m_bits_buffer` (least significant first), then the unconsumed words of
`m_word_buffer`, then the words of the future `chacha` blocks
`counter, counter + 1, …` — each 32-bit word yielding its bits least
significant first.  This is the observable stream position: `bits`
consumes exactly from the front of this sequence. -/
def upBitAux (nb bb wn : Nat) (wb : List Nat) (no c : Nat) (k : Nat) : Nat :=
  if k < nb then (bb >>> k) &&& 1
  else if wn + (k - nb) / 32 < 16 then
    (wb.getD (wn + (k - nb) / 32) 0 >>> ((k - nb) % 32)) &&& 1
  else
    ((chacha 20 key no ((c + (wn + (k - nb) / 32 - 16) / 16) % 2 ^ 64)).getD
      ((wn + (k - nb) / 32 - 16) % 16) 0 >>> ((k - nb) % 32)) &&& 1

def upBit (s : RandomState) (k : Nat) : Nat :=
  upBitAux s.numBits s.bitsBuffer s.wordBufferNext s.wordBuffer s.nonce s.counter k

/-- Value with first call most significant: `r₁r₂…r_N` read as a binary
numeral in call order. -/
def msbConcat (bs : List Nat) : Nat := bs.foldl (fun a b => 2 * a + b) 0

/-- Value with first call least significant: `Σ rᵢ · 2^(i-1)`. -/
def lsbConcat (bs : List Nat) : Nat := bs.foldr (fun b a => b + 2 * a) 0

/-- Extract the value and final state of a normal return. -/
def Res.toOption : Res α → Option (α × RandomState)
  | .ok a s => some (a, s)
  | _ => none

/-- The number-sampler part of the C4 invariant:
`0 ≤ m_number_buffer < m_number_range ≤ 2^64 - 1`. -/
@[reducible] def NumInv (s : RandomState) : Prop :=
  s.numberBuffer < s.numberRange ∧ s.numberRange ≤ 2 ^ 64 - 1

/-- Well-formedness of the reservoir part of the state, true of every
reachable state: the bit buffer holds `numBits ≤ 32` bits, the word buffer
has 16 words of 32 bits, the cursor is in `[0, 16]` and the counter is a
uint64 value. -/
@[reducible] def Valid (s : RandomState) : Prop :=
  s.numBits ≤ 32 ∧ s.bitsBuffer < 2 ^ s.numBits ∧
  s.wordBufferNext ≤ 16 ∧ s.wordBuffer.length = 16 ∧
  (∀ w ∈ s.wordBuffer, w < 2 ^ 32) ∧ s.counter < 2 ^ 64

instance : DecidablePred NumInv := fun s => by unfold NumInv; infer_instance

instance : DecidablePred Valid := fun s => by unfold Valid; infer_instance

end random_private

namespace random_private

/-! ### Generic arithmetic helpers -/

lemma shiftLeft_or_eq_add {b z : Nat} (a : Nat) (hb : b < 2 ^ z) :
    (a <<< z) ||| b = a <<< z + b := by
  rw [Nat.shiftLeft_eq, Nat.mul_comm]
  apply Nat.eq_of_testBit_eq
  intro i
  rw [Nat.testBit_or, Nat.testBit_mul_pow_two_add a hb i]
  rcases lt_or_le i z with h | h
  · simp [Nat.testBit_mul_pow_two, h, Nat.not_le_of_lt h]
  · have hbi : b.testBit i = false :=
      Nat.testBit_lt_two_pow (lt_of_lt_of_le hb (Nat.pow_le_pow_right (by norm_num) h))
    simp [Nat.testBit_mul_pow_two, h, Nat.not_lt_of_le h, hbi]

lemma or_low_bits_lt {a b : Nat} {m n : Nat} (ha : a < 2 ^ m) (hb : b < 2 ^ n)
    (hnm : n ≤ m) : a ||| b < 2 ^ m :=
  Nat.or_lt_two_pow ha (lt_of_lt_of_le hb (Nat.pow_le_pow_right (by norm_num) hnm))

lemma div32_of_add32 (j : Nat) : (j + 32) / 32 = j / 32 + 1 := Nat.add_div_right j (by norm_num)

lemma mod32_of_add32 (j : Nat) : (j + 32) % 32 = j % 32 := Nat.add_mod_right j 32

/-! ### Well-formedness of `chacha` output -/

lemma doubleRound_length {l : List Nat} (h : l.length = 16) :
    (doubleRound l).length = 16 := by
  obtain ⟨x0, l, rfl⟩ := @List.exists_of_length_succ Nat 15 l h
  have h : l.length = 15 := by simpa using h
  obtain ⟨x1, l, rfl⟩ := @List.exists_of_length_succ Nat 14 l h
  have h : l.length = 14 := by simpa using h
  obtain ⟨x2, l, rfl⟩ := @List.exists_of_length_succ Nat 13 l h
  have h : l.length = 13 := by simpa using h
  obtain ⟨x3, l, rfl⟩ := @List.exists_of_length_succ Nat 12 l h
  have h : l.length = 12 := by simpa using h
  obtain ⟨x4, l, rfl⟩ := @List.exists_of_length_succ Nat 11 l h
  have h : l.length = 11 := by simpa using h
  obtain ⟨x5, l, rfl⟩ := @List.exists_of_length_succ Nat 10 l h
  have h : l.length = 10 := by simpa using h
  obtain ⟨x6, l, rfl⟩ := @List.exists_of_length_succ Nat 9 l h
  have h : l.length = 9 := by simpa using h
  obtain ⟨x7, l, rfl⟩ := @List.exists_of_length_succ Nat 8 l h
  have h : l.length = 8 := by simpa using h
  obtain ⟨x8, l, rfl⟩ := @List.exists_of_length_succ Nat 7 l h
  have h : l.length = 7 := by simpa using h
  obtain ⟨x9, l, rfl⟩ := @List.exists_of_length_succ Nat 6 l h
  have h : l.length = 6 := by simpa using h
  obtain ⟨x10, l, rfl⟩ := @List.exists_of_length_succ Nat 5 l h
  have h : l.length = 5 := by simpa using h
  obtain ⟨x11, l, rfl⟩ := @List.exists_of_length_succ Nat 4 l h
  have h : l.length = 4 := by simpa using h
  obtain ⟨x12, l, rfl⟩ := @List.exists_of_length_succ Nat 3 l h
  have h : l.length = 3 := by simpa using h
  obtain ⟨x13, l, rfl⟩ := @List.exists_of_length_succ Nat 2 l h
  have h : l.length = 2 := by simpa using h
  obtain ⟨x14, l, rfl⟩ := @List.exists_of_length_succ Nat 1 l h
  have h : l.length = 1 := by simpa using h
  obtain ⟨x15, l, rfl⟩ := @List.exists_of_length_succ Nat 0 l h
  have h : l.length = 0 := by simpa using h
  obtain rfl := List.length_eq_zero.mp h
  rfl

lemma chacha_length {rounds : Nat} {k : List Nat} (hk : k.length = 8)
    (nonce counter : Nat) : (chacha rounds k nonce counter).length = 16 := by
  have hin : ([0x61707865, 0x3320646e, 0x79622d32, 0x6b206574] ++ k ++
      [counter % 2 ^ 32, (counter >>> 32) % 2 ^ 32,
       nonce % 2 ^ 32, (nonce >>> 32) % 2 ^ 32]).length = 16 := by
    simp [hk]
  have hiter : ∀ m l, List.length l = 16 → (doubleRound^[m] l).length = 16 := by
    intro m
    induction m with
    | zero => intro l hl; simpa using hl
    | succ m ih =>
      intro l hl
      rw [Function.iterate_succ_apply]
      exact ih _ (doubleRound_length hl)
  have hzip : ∀ l₁ l₂ : List Nat, l₁.length = 16 → l₂.length = 16 →
      (List.zipWith (fun a b => (a + b) % 2 ^ 32) l₁ l₂).length = 16 := by
    intro l₁ l₂ h₁ h₂
    rw [List.length_zipWith, h₁, h₂]
    simp
  exact hzip _ _ (hiter _ _ hin) hin

lemma zipWith_mod_lt : ∀ l₁ l₂ : List Nat,
    ∀ w ∈ List.zipWith (fun a b => (a + b) % 2 ^ 32) l₁ l₂, w < 2 ^ 32 := by
  intro l₁
  induction l₁ with
  | nil => simp
  | cons a t ih =>
    intro l₂
    cases l₂ with
    | nil => simp
    | cons b t₂ =>
      intro w hw
      rcases (List.mem_cons).mp hw with h | h
      · subst h; exact Nat.mod_lt _ (by norm_num)
      · exact ih t₂ w h

lemma chacha_mem_lt {rounds : Nat} {k : List Nat} (nonce counter : Nat) :
    ∀ w ∈ chacha rounds k nonce counter, w < 2 ^ 32 :=
  fun w hw => zipWith_mod_lt _ _ w hw

/-- C2: the 20-round core on the published reference triple (key
`b1c16ec4 …`, nonce `0x218268cfd531da1a`, counter 1) returns exactly the
published 16-word block beginning `0x4ec3fbe5, 0xa9d9a160, …` of the
known-answer test in tests/random.cc. -/
theorem chacha20_known_answer :
    chacha 20
      [0xb1c16ec4, 0x78a8e88c, 0xe7375a72, 0x35b7df80,
       0x2eed681f, 0xfb794c19, 0xe1beaec6, 0x5d9767a6]
      0x218268cfd531da1a 1 =
    [0x4ec3fbe5, 0xa9d9a160, 0x5b3417db, 0x3627400a,
     0x10f93b85, 0xf1bd60b0, 0x29b697f8, 0x38d1010f,
     0x904c2cae, 0xeaa95b22, 0xf518d514, 0xa0de2959,
     0x6c7aca98, 0x2712e6cf, 0xe4843c05, 0x32334a9a] := by
  decide

end random_private

namespace random_private

/-! ### Lemmas about the refill and word-load steps of `Random::bits` -/

lemma getD_mem_of_lt {l : List Nat} {i : Nat} (d : Nat) (h : i < l.length) :
    l.getD i d ∈ l := by
  rw [List.getD_eq_getElem l d h]
  exact l.getElem_mem h

lemma key_length : key.length = 8 := rfl

lemma refillWords_of_ne {s : RandomState} (h : s.wordBufferNext ≠ 16) :
    refillWords s = .ok s := by
  unfold refillWords
  rw [if_neg h]

lemma refillWords_of_eq {s : RandomState} (h : s.wordBufferNext = 16)
    (hc : s.counter + 1 < 2 ^ 64) :
    refillWords s = .ok { s with wordBuffer := chacha 20 key s.nonce s.counter
                                 counter := s.counter + 1
                                 wordBufferNext := 0 } := by
  unfold refillWords
  rw [if_pos h]
  simp only [Nat.mod_eq_of_lt hc]
  rw [if_neg (Nat.succ_ne_zero s.counter)]

lemma refillWords_wrap {s : RandomState} (h : s.wordBufferNext = 16)
    (hc : s.counter = 2 ^ 64 - 1) :
    refillWords s = .error (.runtimeError "Random counter overflow",
      { s with wordBuffer := chacha 20 key s.nonce s.counter
               counter := 0
               wordBufferNext := 0 }) := by
  have h1 : (s.counter + 1) % 2 ^ 64 = 0 := by
    rw [hc]
    norm_num
  unfold refillWords
  simp only [h, h1]
  simp

/-- Inversion for a successful refill: either no refill happened, or the
word buffer now holds the `chacha` block of the old counter and the
counter advanced by one without wrapping. -/
lemma refillWords_ok_inv {s s₁ : RandomState} (hv : s.counter < 2 ^ 64)
    (h : refillWords s = .ok s₁) :
    (s.wordBufferNext ≠ 16 ∧ s₁ = s) ∨
    (s.wordBufferNext = 16 ∧ s.counter + 1 < 2 ^ 64 ∧
      s₁ = { s with wordBuffer := chacha 20 key s.nonce s.counter
                    counter := s.counter + 1
                    wordBufferNext := 0 }) := by
  by_cases h16 : s.wordBufferNext = 16
  · right
    refine ⟨h16, ?_, ?_⟩
    · by_contra hc
      have hc' : s.counter = 2 ^ 64 - 1 := by omega
      rw [refillWords_wrap h16 hc'] at h
      exact absurd h (by simp)
    · have hc : s.counter + 1 < 2 ^ 64 := by
        by_contra hc
        have hc' : s.counter = 2 ^ 64 - 1 := by omega
        rw [refillWords_wrap h16 hc'] at h
        exact absurd h (by simp)
      rw [refillWords_of_eq h16 hc] at h
      exact (Except.ok.inj h).symm
  · left
    rw [refillWords_of_ne h16] at h
    exact ⟨h16, (Except.ok.inj h).symm⟩

end random_private

namespace random_private

/-! ### Advancement of the upcoming-bit stream -/

lemma div32_ge {k : Nat} (h : 32 ≤ k) : k / 32 = (k - 32) / 32 + 1 := by
  have e : k = (k - 32) + 32 := by omega
  conv_lhs => rw [e]
  exact div32_of_add32 _

lemma mod32_ge {k : Nat} (h : 32 ≤ k) : k % 32 = (k - 32) % 32 := by
  have e : k = (k - 32) + 32 := by omega
  conv_lhs => rw [e]
  exact mod32_of_add32 _

lemma div16_ge {m : Nat} (h : 16 ≤ m) : m / 16 = (m - 16) / 16 + 1 := by
  have e : m = (m - 16) + 16 := by omega
  conv_lhs => rw [e]
  exact Nat.add_div_right _ (by norm_num)

lemma mod16_ge {m : Nat} (h : 16 ≤ m) : m % 16 = (m - 16) % 16 := by
  have e : m = (m - 16) + 16 := by omega
  conv_lhs => rw [e]
  exact Nat.add_mod_right _ 16

lemma upBitAux_lt {nb k : Nat} (bb wn : Nat) (wb : List Nat) (no c : Nat)
    (h : k < nb) : upBitAux nb bb wn wb no c k = (bb >>> k) &&& 1 := by
  unfold upBitAux
  rw [if_pos h]

lemma upBitAux_word {nb wn k : Nat} (bb : Nat) (wb : List Nat) (no c : Nat)
    (h : nb ≤ k) (h2 : wn + (k - nb) / 32 < 16) :
    upBitAux nb bb wn wb no c k =
      (wb.getD (wn + (k - nb) / 32) 0 >>> ((k - nb) % 32)) &&& 1 := by
  unfold upBitAux
  rw [if_neg (not_lt.mpr h), if_pos h2]

lemma upBitAux_future {nb wn k : Nat} (bb : Nat) (wb : List Nat) (no c : Nat)
    (h : nb ≤ k) (h2 : ¬ wn + (k - nb) / 32 < 16) :
    upBitAux nb bb wn wb no c k =
      ((chacha 20 key no ((c + (wn + (k - nb) / 32 - 16) / 16) % 2 ^ 64)).getD
        ((wn + (k - nb) / 32 - 16) % 16) 0 >>> ((k - nb) % 32)) &&& 1 := by
  unfold upBitAux
  rw [if_neg (not_lt.mpr h), if_neg h2]

/-- Consuming `n ≤ nb` bits from the bit buffer advances the upcoming-bit
stream by exactly `n`. -/
lemma upBitAux_consume {nb n : Nat} (bb wn : Nat) (wb : List Nat) (no c : Nat)
    (hn : n ≤ nb) (k : Nat) :
    upBitAux (nb - n) (bb >>> n) wn wb no c k = upBitAux nb bb wn wb no c (k + n) := by
  rcases lt_or_le k (nb - n) with h | h
  · rw [upBitAux_lt _ _ _ _ _ h, upBitAux_lt _ _ _ _ _ (by omega : k + n < nb)]
    rw [← Nat.shiftRight_add, Nat.add_comm n k]
  · have h1 : nb ≤ k + n := by omega
    have hj : k - (nb - n) = k + n - nb := by omega
    by_cases h2 : wn + (k + n - nb) / 32 < 16
    · rw [upBitAux_word _ _ _ _ h (by rw [hj]; exact h2), upBitAux_word _ _ _ _ h1 h2, hj]
    · rw [upBitAux_future _ _ _ _ h (by rw [hj]; exact h2),
          upBitAux_future _ _ _ _ h1 h2, hj]

/-- Loading the next word of the word buffer (no block refill) does not
change the upcoming-bit stream beyond the `nb` bits just consumed. -/
lemma upBitAux_load {nb wn : Nat} (bb : Nat) (wb : List Nat) (no c : Nat)
    (hwn : wn < 16) (k : Nat) :
    upBitAux 32 (wb.getD wn 0) (wn + 1) wb no c k =
      upBitAux nb bb wn wb no c (k + nb) := by
  have hkn : k + nb - nb = k := by omega
  rcases lt_or_le k 32 with h | h
  · rw [upBitAux_lt _ _ _ _ _ h,
        upBitAux_word _ _ _ _ (by omega : nb ≤ k + nb)
          (by rw [hkn, Nat.div_eq_of_lt h]; omega)]
    rw [hkn, Nat.div_eq_of_lt h, Nat.mod_eq_of_lt h, Nat.add_zero]
  · have hd : (k + nb - nb) / 32 = (k - 32) / 32 + 1 := by rw [hkn]; exact div32_ge h
    have hm : (k + nb - nb) % 32 = (k - 32) % 32 := by rw [hkn]; exact mod32_ge h
    have hidx : wn + 1 + (k - 32) / 32 = wn + (k + nb - nb) / 32 := by rw [hd]; ring
    by_cases h2 : wn + 1 + (k - 32) / 32 < 16
    · rw [upBitAux_word _ _ _ _ (by omega : (32:Nat) ≤ k) h2,
          upBitAux_word _ _ _ _ (by omega : nb ≤ k + nb) (by rw [← hidx]; exact h2)]
      rw [hm, hidx]
    · rw [upBitAux_future _ _ _ _ (by omega : (32:Nat) ≤ k) h2,
          upBitAux_future _ _ _ _ (by omega : nb ≤ k + nb) (by rw [← hidx]; exact h2)]
      rw [hm, hidx]

/-- Refilling the word buffer with the `chacha` block of the current counter
and loading its first word does not change the upcoming-bit stream beyond
the `nb` bits just consumed. -/
lemma upBitAux_refill_load {nb : Nat} (bb : Nat) (wb : List Nat) (no c : Nat)
    (hc : c + 1 < 2 ^ 64) (k : Nat) :
    upBitAux 32 ((chacha 20 key no c).getD 0 0) 1 (chacha 20 key no c) no (c + 1) k =
      upBitAux nb bb 16 wb no c (k + nb) := by
  have hkn : k + nb - nb = k := by omega
  have hc0 : c < 2 ^ 64 := by omega
  have hrhs : ∀ hh2 : ¬ 16 + (k + nb - nb) / 32 < 16,
      upBitAux nb bb 16 wb no c (k + nb) =
      ((chacha 20 key no ((c + (k / 32) / 16) % 2 ^ 64)).getD ((k / 32) % 16) 0 >>>
        (k % 32)) &&& 1 := by
    intro hh2
    rw [upBitAux_future _ _ _ _ (by omega : nb ≤ k + nb) hh2, hkn]
    have e1 : 16 + k / 32 - 16 = k / 32 := by omega
    rw [e1]
  have hh2 : ¬ 16 + (k + nb - nb) / 32 < 16 := by omega
  rw [hrhs hh2]
  rcases lt_or_le k 32 with h | h
  · rw [upBitAux_lt _ _ _ _ _ h]
    rw [Nat.div_eq_of_lt h, Nat.mod_eq_of_lt h, Nat.zero_div, Nat.add_zero,
        Nat.mod_eq_of_lt hc0, Nat.zero_mod]
  · have hd : k / 32 = (k - 32) / 32 + 1 := div32_ge h
    have hm : k % 32 = (k - 32) % 32 := mod32_ge h
    have hidx : 1 + (k - 32) / 32 = k / 32 := by rw [hd]; ring
    by_cases h2 : 1 + (k - 32) / 32 < 16
    · rw [upBitAux_word _ _ _ _ (by omega : (32:Nat) ≤ k) h2]
      have hlt : k / 32 < 16 := by omega
      rw [hm, hidx, Nat.div_eq_of_lt hlt, Nat.mod_eq_of_lt hlt, Nat.add_zero,
          Nat.mod_eq_of_lt hc0]
    · rw [upBitAux_future _ _ _ _ (by omega : (32:Nat) ≤ k) h2]
      have h16 : 16 ≤ k / 32 := by omega
      have e2 : 1 + (k - 32) / 32 - 16 = k / 32 - 16 := by omega
      rw [hm, e2, ← mod16_ge h16]
      have e3 : c + 1 + (k / 32 - 16) / 16 = c + (k / 32) / 16 := by
        rw [div16_ge h16]
        ring
      rw [e3]


lemma bitsGo_zero (n r : Nat) (s : RandomState) : bitsGo 0 n r s = .timeout := rfl

lemma bitsGo_succ (fuel n r : Nat) (s : RandomState) :
    bitsGo (fuel + 1) n r s =
      if s.numBits ≤ n then
        match refillWords s with
        | .error (e, s') => .exc e s'
        | .ok s' =>
          bitsGo fuel (n - s.numBits) (((r <<< s.numBits) % 2 ^ 64) ||| s.bitsBuffer)
            (loadWord s')
      else
        .ok (((r <<< n) % 2 ^ 64) ||| (s.bitsBuffer &&& ((1 <<< n) - 1)))
          { s with bitsBuffer := s.bitsBuffer >>> n
                   numBits := s.numBits - n } := rfl

lemma shiftRight_lt_pow {x m n : Nat} (h : x < 2 ^ (m + n)) : x >>> n < 2 ^ m := by
  rw [Nat.shiftRight_eq_div_pow]
  rw [Nat.div_lt_iff_lt_mul (Nat.pos_pow_of_pos n (by norm_num))]
  rw [← pow_add] at *
  exact h

/-- The combined effect of one loop iteration of `Random::bits` on the
state: after a successful refill and word load the state is still valid,
the counter did not decrease (and grew by at most one), the nonce and the
number-sampler fields are untouched, and the upcoming-bit stream advanced
by exactly the `numBits` bits just consumed. -/
lemma loadStep {s s₁ : RandomState} (hv : Valid s) (hrf : refillWords s = .ok s₁) :
    Valid (loadWord s₁) ∧ (loadWord s₁).numBits = 32 ∧
    s.counter ≤ (loadWord s₁).counter ∧ (loadWord s₁).counter ≤ s.counter + 1 ∧
    (loadWord s₁).nonce = s.nonce ∧
    (loadWord s₁).numberBuffer = s.numberBuffer ∧
    (loadWord s₁).numberRange = s.numberRange ∧
    ∀ k, upBit (loadWord s₁) k = upBit s (k + s.numBits) := by
  obtain ⟨hnb, hbb, hwn, hlen, hmem, hc⟩ := hv
  rcases refillWords_ok_inv hc hrf with ⟨h16, heq⟩ | ⟨h16, hc1, heq⟩
  · subst s₁
    have hlt : s.wordBufferNext < 16 := by omega
    have hbuf : s.wordBuffer.getD s.wordBufferNext 0 < 2 ^ 32 :=
      hmem _ (getD_mem_of_lt 0 (by omega))
    refine ⟨⟨by simp [loadWord], by simpa [loadWord] using hbuf,
      by simp [loadWord]; omega, by simp [loadWord, hlen],
      by simpa [loadWord] using hmem, by simpa [loadWord] using hc⟩,
      by simp [loadWord], by simp [loadWord], by simp [loadWord],
      by simp [loadWord], by simp [loadWord], by simp [loadWord], ?_⟩
    intro k
    show upBitAux 32 (s.wordBuffer.getD s.wordBufferNext 0) (s.wordBufferNext + 1)
        s.wordBuffer s.nonce s.counter k =
      upBitAux s.numBits s.bitsBuffer s.wordBufferNext s.wordBuffer s.nonce s.counter
        (k + s.numBits)
    exact upBitAux_load _ _ _ _ hlt k
  · subst s₁
    have hchlen : (chacha 20 key s.nonce s.counter).length = 16 :=
      chacha_length key_length _ _
    have hbuf : (chacha 20 key s.nonce s.counter).getD 0 0 < 2 ^ 32 :=
      chacha_mem_lt _ _ _ (getD_mem_of_lt 0 (by omega))
    refine ⟨⟨by simp [loadWord], by simpa [loadWord] using hbuf,
      by simp [loadWord], by simp [loadWord, hchlen],
      by simpa [loadWord] using @chacha_mem_lt 20 key s.nonce s.counter,
      by simpa [loadWord] using hc1⟩,
      by simp [loadWord], by simp [loadWord], by simp [loadWord],
      by simp [loadWord], by simp [loadWord], by simp [loadWord], ?_⟩
    intro k
    show upBitAux 32 ((chacha 20 key s.nonce s.counter).getD 0 0) 1
        (chacha 20 key s.nonce s.counter) s.nonce (s.counter + 1) k =
      upBitAux s.numBits s.bitsBuffer s.wordBufferNext s.wordBuffer s.nonce s.counter
        (k + s.numBits)
    rw [h16]
    exact upBitAux_refill_load _ _ _ _ hc1 k

/-- Master lemma for a successful `bits` loop: validity is preserved, the
counter does not decrease, the nonce and the number-sampler fields are
untouched, and the upcoming-bit stream advances by exactly `n`. -/
lemma bitsGo_ok_spec {fuel : Nat} : ∀ {n r : Nat} {s : RandomState} {v : Nat}
    {s' : RandomState}, Valid s → bitsGo fuel n r s = .ok v s' →
    Valid s' ∧ s.counter ≤ s'.counter ∧ s'.nonce = s.nonce ∧
    s'.numberBuffer = s.numberBuffer ∧ s'.numberRange = s.numberRange ∧
    (∀ k, upBit s' k = upBit s (k + n)) := by
  induction fuel with
  | zero =>
    intro n r s v s' hv h
    rw [bitsGo_zero] at h
    exact absurd h (by simp)
  | succ fuel ih =>
    intro n r s v s' hv h
    rw [bitsGo_succ] at h
    by_cases hle : s.numBits ≤ n
    · rw [if_pos hle] at h
      cases hrf : refillWords s with
      | error p =>
        rw [hrf] at h
        obtain ⟨e, t⟩ := p
        simp at h
      | ok s₁ =>
        rw [hrf] at h
        obtain ⟨hv2, h32, hcle, hcle1, hno, hnb2, hnr2, hup⟩ := loadStep hv hrf
        obtain ⟨hv', hcle', hno', hnb', hnr', hup'⟩ := ih hv2 h
        refine ⟨hv', le_trans hcle hcle', hno'.trans hno, hnb'.trans hnb2,
          hnr'.trans hnr2, ?_⟩
        intro k
        rw [hup' k, hup (k + (n - s.numBits))]
        congr 1
        omega
    · rw [if_neg hle] at h
      injection h with h1 h2
      subst h1
      subst h2
      obtain ⟨hnb, hbb, hwn, hlen, hmem, hc⟩ := hv
      have hnlt : n < s.numBits := by omega
      refine ⟨⟨by show s.numBits - n ≤ 32; omega, ?_, hwn, hlen, hmem, hc⟩,
        le_refl _, rfl, rfl, rfl, ?_⟩
      · show s.bitsBuffer >>> n < 2 ^ (s.numBits - n)
        apply shiftRight_lt_pow
        have e : s.numBits - n + n = s.numBits := by omega
        rw [e]
        exact hbb
      · intro k
        show upBitAux (s.numBits - n) (s.bitsBuffer >>> n) s.wordBufferNext s.wordBuffer
            s.nonce s.counter k =
          upBitAux s.numBits s.bitsBuffer s.wordBufferNext s.wordBuffer s.nonce s.counter
            (k + n)
        exact upBitAux_consume _ _ _ _ _ (by omega) k

/-- Wrapper of `bitsGo_ok_spec` at the `bits` entry point. -/
lemma bits_ok_spec {n : Nat} {s : RandomState} {v : Nat} {s' : RandomState}
    (hv : Valid s) (hn : n ≤ 64) (h : bits n s = .ok v s') :
    Valid s' ∧ s.counter ≤ s'.counter ∧ s'.nonce = s.nonce ∧
    s'.numberBuffer = s.numberBuffer ∧ s'.numberRange = s.numberRange ∧
    (∀ k, upBit s' k = upBit s (k + n)) := by
  unfold bits at h
  rw [if_neg (not_lt.mpr hn)] at h
  exact bitsGo_ok_spec hv h

/-- The accumulated result of the `bits` loop stays below `2 ^ (m + n)` when
the incoming accumulator is below `2 ^ m`. -/
lemma bitsGo_lt {fuel : Nat} : ∀ {n r m : Nat} {s : RandomState} {v : Nat}
    {s' : RandomState}, Valid s → r < 2 ^ m → m + n ≤ 64 →
    bitsGo fuel n r s = .ok v s' → v < 2 ^ (m + n) := by
  induction fuel with
  | zero =>
    intro n r m s v s' hv hr hmn h
    rw [bitsGo_zero] at h
    exact absurd h (by simp)
  | succ fuel ih =>
    intro n r m s v s' hv hr hmn h
    rw [bitsGo_succ] at h
    by_cases hle : s.numBits ≤ n
    · rw [if_pos hle] at h
      cases hrf : refillWords s with
      | error p =>
        rw [hrf] at h
        obtain ⟨e, t⟩ := p
        simp at h
      | ok s₁ =>
        rw [hrf] at h
        have hshift : r <<< s.numBits < 2 ^ (m + s.numBits) := by
          rw [Nat.shiftLeft_eq, pow_add]
          exact (Nat.mul_lt_mul_right (Nat.pos_pow_of_pos _ (by norm_num))).mpr hr
        have hr2 : ((r <<< s.numBits) % 2 ^ 64) ||| s.bitsBuffer <
            2 ^ (m + s.numBits) :=
          or_low_bits_lt (lt_of_le_of_lt (Nat.mod_le _ _) hshift) hv.2.1
            (by omega)
        have := ih (loadStep hv hrf).1 hr2 (by omega) h
        have e : m + s.numBits + (n - s.numBits) = m + n := by omega
        rwa [e] at this
    · rw [if_neg hle] at h
      injection h with h1 h2
      subst h1
      have hshift : r <<< n < 2 ^ (m + n) := by
        rw [Nat.shiftLeft_eq, pow_add]
        exact (Nat.mul_lt_mul_right (Nat.pos_pow_of_pos _ (by norm_num))).mpr hr
      apply or_low_bits_lt (lt_of_le_of_lt (Nat.mod_le _ _) hshift) ?_
        (le_add_self : n ≤ m + n)
      rw [Nat.one_shiftLeft, Nat.and_pow_two_sub_one_eq_mod]
      exact Nat.mod_lt _ (Nat.pos_pow_of_pos _ (by norm_num))

/-- The value returned by a successful `bits(n)` has at most `n` bits. -/
lemma bits_lt {n : Nat} {s : RandomState} {v : Nat} {s' : RandomState}
    (hv : Valid s) (hn : n ≤ 64) (h : bits n s = .ok v s') : v < 2 ^ n := by
  unfold bits at h
  rw [if_neg (not_lt.mpr hn)] at h
  have := bitsGo_lt hv (by norm_num : (0:Nat) < 2 ^ 0) (by omega) h
  rwa [Nat.zero_add] at this

lemma refillWords_error {s : RandomState} {e : Err} {t : RandomState}
    (h : refillWords s = .error (e, t)) :
    e = .runtimeError "Random counter overflow" := by
  unfold refillWords at h
  split at h
  · dsimp only at h
    split at h
    · injection h with h1
      exact (congrArg Prod.fst h1).symm
    · exact absurd h (by simp)
  · exact absurd h (by simp)

/-- The `bits` loop can only throw the counter-overflow `runtime_error`. -/
lemma bitsGo_exc_runtime {fuel : Nat} : ∀ {n r : Nat} {s : RandomState} {e : Err}
    {s' : RandomState}, bitsGo fuel n r s = .exc e s' →
    e = .runtimeError "Random counter overflow" := by
  induction fuel with
  | zero =>
    intro n r s e s' h
    rw [bitsGo_zero] at h
    exact absurd h (by simp)
  | succ fuel ih =>
    intro n r s e s' h
    rw [bitsGo_succ] at h
    by_cases hle : s.numBits ≤ n
    · rw [if_pos hle] at h
      cases hrf : refillWords s with
      | error p =>
        rw [hrf] at h
        obtain ⟨e1, t⟩ := p
        have h' : (Res.exc e1 t : Res Nat) = Res.exc e s' := h
        injection h' with h1 h2
        exact h1 ▸ refillWords_error hrf
      | ok s₁ =>
        rw [hrf] at h
        exact ih h
    · rw [if_neg hle] at h
      exact absurd h (by simp)

/-- Fuel sufficiency for the `bits` loop, from a state whose bit buffer was
just loaded (`numBits = 32`): `n / 32 + 1` iterations suffice, and the loop
succeeds as long as the counter cannot overflow within the remaining fuel. -/
lemma bitsGo_ok32 {fuel : Nat} : ∀ {n r : Nat} {s : RandomState}, Valid s →
    s.numBits = 32 → n / 32 + 1 ≤ fuel → s.counter + fuel ≤ 2 ^ 64 →
    ∃ v s', bitsGo fuel n r s = .ok v s' := by
  induction fuel with
  | zero =>
    intro n r s hv h32 hfuel hcf
    omega
  | succ fuel ih =>
    intro n r s hv h32 hfuel hcf
    rw [bitsGo_succ]
    by_cases hle : s.numBits ≤ n
    · have h32n : 32 ≤ n := h32 ▸ hle
      have hdiv : 1 ≤ n / 32 := (Nat.one_le_div_iff (by norm_num)).mpr h32n
      have hc1 : s.counter + 1 < 2 ^ 64 := by omega
      obtain ⟨s₁, hrf⟩ : ∃ s₁, refillWords s = .ok s₁ := by
        by_cases h16 : s.wordBufferNext = 16
        · exact ⟨_, refillWords_of_eq h16 hc1⟩
        · exact ⟨_, refillWords_of_ne h16⟩
      rw [if_pos hle, hrf]
      obtain ⟨hv2, hl32, hcge, hcle1, _, _, _, _⟩ := loadStep hv hrf
      apply ih hv2 hl32
      · have hd : n / 32 = (n - 32) / 32 + 1 := div32_ge h32n
        rw [h32]
        omega
      · omega
    · rw [if_neg hle]
      exact ⟨_, _, rfl⟩

/-- `bits(n)` succeeds for every valid state whose counter is not within 66
of the overflow point. -/
lemma bits_ok_exists {n : Nat} {s : RandomState} (hv : Valid s) (hn : n ≤ 64)
    (hc : s.counter + 66 ≤ 2 ^ 64) : ∃ v s', bits n s = .ok v s' := by
  unfold bits
  rw [if_neg (not_lt.mpr hn)]
  have e : n + 2 = (n + 1) + 1 := rfl
  rw [e, bitsGo_succ]
  by_cases hle : s.numBits ≤ n
  · have hc1 : s.counter + 1 < 2 ^ 64 := by omega
    obtain ⟨s₁, hrf⟩ : ∃ s₁, refillWords s = .ok s₁ := by
      by_cases h16 : s.wordBufferNext = 16
      · exact ⟨_, refillWords_of_eq h16 hc1⟩
      · exact ⟨_, refillWords_of_ne h16⟩
    rw [if_pos hle, hrf]
    obtain ⟨hv2, hl32, hcge, hcle1, _, _, _, _⟩ := loadStep hv hrf
    apply bitsGo_ok32 hv2 hl32
    · have h1 : (n - s.numBits) / 32 ≤ n / 32 := Nat.div_le_div_right (by omega)
      have h2 : n / 32 ≤ n := Nat.div_le_self n 32
      omega
    · omega
  · rw [if_neg hle]
    exact ⟨_, _, rfl⟩

/-- A successful `bits(1)` returns exactly the next upcoming keystream bit. -/
lemma bits_one_val {s : RandomState} {v : Nat} {s' : RandomState} (hv : Valid s)
    (h : bits 1 s = .ok v s') : v = upBit s 0 := by
  obtain ⟨hnb, hbb, hwn, hlen, hmem, hc⟩ := hv
  unfold bits at h
  rw [if_neg (by norm_num)] at h
  have h3 : bitsGo (2 + 1) 1 0 s = .ok v s' := h
  rw [bitsGo_succ] at h3
  by_cases hle : s.numBits ≤ 1
  · rw [if_pos hle] at h3
    cases hrf : refillWords s with
    | error p =>
      rw [hrf] at h3
      obtain ⟨e, t⟩ := p
      simp at h3
    | ok s₁ =>
      rw [hrf] at h3
      have h4 : bitsGo (1 + 1) (1 - s.numBits)
          (((0 <<< s.numBits) % 2 ^ 64) ||| s.bitsBuffer) (loadWord s₁) = .ok v s' := h3
      rw [bitsGo_succ] at h4
      rw [if_neg (by show ¬ (32 ≤ 1 - s.numBits); omega)] at h4
      injection h4 with h1 h2
      subst h1
      rcases (by omega : s.numBits = 0 ∨ s.numBits = 1) with h0 | h0
      · have hbb0 : s.bitsBuffer = 0 := by
          rw [h0, pow_zero] at hbb
          omega
        rw [h0, hbb0]
        rcases refillWords_ok_inv hc hrf with ⟨h16, heq⟩ | ⟨h16, hc1, heq⟩
        · subst s₁
          rw [upBit, upBitAux_word _ _ _ _ (by omega) (by simpa using by omega : s.wordBufferNext + (0 - s.numBits) / 32 < 16)]
          · show ((0 <<< 1) % 2 ^ 64) ||| ((loadWord s).bitsBuffer &&& ((1 <<< 1) - 1)) = _
            rw [h0]
            simp [loadWord, Nat.shiftRight_zero]
        · subst s₁
          rw [upBit, upBitAux_future _ _ _ _ (by omega)
            (by rw [h16]; omega)]
          show ((0 <<< 1) % 2 ^ 64) |||
              ((loadWord _).bitsBuffer &&& ((1 <<< 1) - 1)) = _
          rw [h0, h16]
          have hmod : s.counter % 18446744073709551616 = s.counter := Nat.mod_eq_of_lt hc
          simp [loadWord, Nat.shiftRight_zero, hmod]
      · have hblt : s.bitsBuffer < 2 := by
          rw [h0] at hbb
          simpa using hbb
        rw [h0]
        rw [upBit, upBitAux_lt _ _ _ _ _ (by omega)]
        show ((((0 <<< 1) % 2 ^ 64) ||| s.bitsBuffer) <<< (1 - 1) % 2 ^ 64) |||
            ((loadWord s₁).bitsBuffer &&& ((1 <<< (1 - 1)) - 1)) = _
        have e1 : ((0 <<< 1) % 2 ^ 64) ||| s.bitsBuffer = s.bitsBuffer := by simp
        rw [e1]
        have e2 : s.bitsBuffer <<< (1 - 1) % 2 ^ 64 = s.bitsBuffer := by
          simp
          omega
        rw [e2]
        have e3 : (1 <<< (1 - 1)) - 1 = 0 := by simp
        rw [e3]
        simp [Nat.shiftRight_zero, Nat.and_one_is_mod, Nat.mod_eq_of_lt hblt]
  · rw [if_neg hle] at h3
    injection h3 with h1 h2
    subst h1
    rw [upBit, upBitAux_lt _ _ _ _ _ (by omega)]
    simp [Nat.shiftRight_zero]

/-! ### Lemmas about `uniform_uint64` -/

lemma uniformLoop_zero (n mn : Nat) (s : RandomState) :
    uniformLoop 0 n mn s = .timeout := rfl

lemma uniformLoop_succ (fuel n mn : Nat) (s : RandomState) :
    uniformLoop (fuel + 1) n mn s =
      match bits (clz64 s.numberRange)
          { s with numberRange := (s.numberRange <<< clz64 s.numberRange) % 2 ^ 64
                   numberBuffer := (s.numberBuffer <<< clz64 s.numberRange) % 2 ^ 64 } with
      | .exc e s' => .exc e s'
      | .timeout => .timeout
      | .ok b s₂ =>
        if (s₂.numberBuffer ||| b) / n < s₂.numberRange / n then
          .ok ((mn + (s₂.numberBuffer ||| b) % n) % 2 ^ 64)
            { s₂ with numberRange := s₂.numberRange / n
                      numberBuffer := (s₂.numberBuffer ||| b) / n }
        else
          uniformLoop fuel n mn
            { s₂ with numberRange := s₂.numberRange % n
                      numberBuffer := (s₂.numberBuffer ||| b) % n } := rfl

lemma bit_length_zero (fuel : Nat) : bit_length fuel 0 = 0 := by
  cases fuel with
  | zero => rfl
  | succ fuel => simp [bit_length]

lemma bit_length_eq : ∀ (fuel : Nat) {x : Nat}, 1 ≤ x → x < 2 ^ fuel →
    bit_length fuel x = Nat.log2 x + 1 := by
  intro fuel
  induction fuel with
  | zero =>
    intro x h1 h2
    simp at h2
    omega
  | succ fuel ih =>
    intro x h1 h2
    unfold bit_length
    rw [if_neg (by omega)]
    by_cases hx2 : x < 2
    · have hx1 : x = 1 := by omega
      subst hx1
      rw [Nat.log2]
      norm_num [bit_length_zero]
    · have hdiv1 : 1 ≤ x / 2 := by omega
      have hdivlt : x / 2 < 2 ^ fuel := by
        rw [Nat.div_lt_iff_lt_mul (by norm_num)]
        rw [← pow_succ]
        exact h2
      rw [ih hdiv1 hdivlt]
      conv_rhs => rw [Nat.log2]
      rw [if_pos (by omega)]

lemma clz64_eq_log2 {x : Nat} (h1 : 1 ≤ x) (h2 : x < 2 ^ 64) :
    clz64 x = 63 - Nat.log2 x := by
  unfold clz64
  rw [bit_length_eq 64 h1 h2]
  have hlog : Nat.log2 x < 64 := (Nat.log2_lt (by omega)).mpr h2
  omega

lemma shiftLeft_clz_lt {r : Nat} (h2 : r < 2 ^ 64) : r <<< clz64 r < 2 ^ 64 := by
  rcases Nat.eq_zero_or_pos r with h0 | h1
  · subst h0
    simp [clz64]
  · rw [clz64_eq_log2 h1 h2]
    rw [Nat.shiftLeft_eq]
    have hlog : Nat.log2 r < 64 := (Nat.log2_lt (by omega)).mpr h2
    have hlt : r < 2 ^ (Nat.log2 r + 1) := Nat.lt_log2_self
    calc r * 2 ^ (63 - Nat.log2 r)
        < 2 ^ (Nat.log2 r + 1) * 2 ^ (63 - Nat.log2 r) :=
          (Nat.mul_lt_mul_right (Nat.pos_pow_of_pos _ (by norm_num))).mpr hlt
      _ = 2 ^ (Nat.log2 r + 1 + (63 - Nat.log2 r)) := (pow_add 2 _ _).symm
      _ ≤ 2 ^ 64 := Nat.pow_le_pow_right (by norm_num) (by omega)

lemma clz64_le (r : Nat) : clz64 r ≤ 64 := by
  unfold clz64
  omega

/-- Effect of the precision top-up step of `uniform_uint64`: the shifts do
not overflow, `bits` returns fresh low bits, and the topped-up pair still
satisfies `buffer < range < 2^64`. -/
lemma topup_inv {s : RandomState} {b : Nat} {s₂ : RandomState}
    (hv : Valid s) (hinv : NumInv s)
    (hb : bits (clz64 s.numberRange)
      { s with numberRange := (s.numberRange <<< clz64 s.numberRange) % 2 ^ 64
               numberBuffer := (s.numberBuffer <<< clz64 s.numberRange) % 2 ^ 64 } =
      .ok b s₂) :
    Valid s₂ ∧ s.counter ≤ s₂.counter ∧
    s₂.numberRange = s.numberRange <<< clz64 s.numberRange ∧
    s₂.numberBuffer ||| b = s.numberBuffer <<< clz64 s.numberRange + b ∧
    s₂.numberBuffer ||| b < s₂.numberRange ∧ s₂.numberRange < 2 ^ 64 := by
  obtain ⟨hbr, hrle⟩ := hinv
  have hrlt : s.numberRange < 2 ^ 64 := by omega
  have hshift : s.numberRange <<< clz64 s.numberRange < 2 ^ 64 := shiftLeft_clz_lt hrlt
  have hbufshift : s.numberBuffer <<< clz64 s.numberRange <
      s.numberRange <<< clz64 s.numberRange := by
    rw [Nat.shiftLeft_eq, Nat.shiftLeft_eq]
    exact (Nat.mul_lt_mul_right (Nat.pos_pow_of_pos _ (by norm_num))).mpr hbr
  have hmodr : (s.numberRange <<< clz64 s.numberRange) % 2 ^ 64 =
      s.numberRange <<< clz64 s.numberRange := Nat.mod_eq_of_lt hshift
  have hmodb : (s.numberBuffer <<< clz64 s.numberRange) % 2 ^ 64 =
      s.numberBuffer <<< clz64 s.numberRange :=
    Nat.mod_eq_of_lt (lt_trans hbufshift hshift)
  have hv₁ : Valid { s with
      numberRange := (s.numberRange <<< clz64 s.numberRange) % 2 ^ 64
      numberBuffer := (s.numberBuffer <<< clz64 s.numberRange) % 2 ^ 64 } := hv
  obtain ⟨hv₂, hcle, _, hnb₂, hnr₂⟩ := bits_ok_spec hv₁ (clz64_le _) hb
  have hblt : b < 2 ^ clz64 s.numberRange := bits_lt hv₁ (clz64_le _) hb
  have hnr₂' : s₂.numberRange = s.numberRange <<< clz64 s.numberRange := by
    rw [hnr₂.1]
    exact hmodr
  have hnb₂' : s₂.numberBuffer = s.numberBuffer <<< clz64 s.numberRange := by
    rw [hnb₂]
    exact hmodb
  have hor : s₂.numberBuffer ||| b = s.numberBuffer <<< clz64 s.numberRange + b := by
    rw [hnb₂']
    exact shiftLeft_or_eq_add _ hblt
  refine ⟨hv₂, hcle, hnr₂', hor, ?_, by rw [hnr₂']; exact hshift⟩
  rw [hor, hnr₂']
  calc s.numberBuffer <<< clz64 s.numberRange + b
      < s.numberBuffer <<< clz64 s.numberRange + 2 ^ clz64 s.numberRange :=
        Nat.add_lt_add_left hblt _
    _ = (s.numberBuffer + 1) * 2 ^ clz64 s.numberRange := by
        rw [Nat.shiftLeft_eq]
        ring
    _ ≤ s.numberRange * 2 ^ clz64 s.numberRange :=
        Nat.mul_le_mul_right _ (by omega)
    _ = s.numberRange <<< clz64 s.numberRange := (Nat.shiftLeft_eq _ _).symm

/-- Every value returned by the rejection loop lies in `[mn, mn + n)`. -/
lemma uniformLoop_ok_mem {fuel : Nat} : ∀ {n mn : Nat} {s : RandomState} {v : Nat}
    {s' : RandomState}, 1 ≤ n → mn + n ≤ 2 ^ 64 →
    uniformLoop fuel n mn s = .ok v s' → mn ≤ v ∧ v < mn + n := by
  induction fuel with
  | zero =>
    intro n mn s v s' hn hbound h
    rw [uniformLoop_zero] at h
    exact absurd h (by simp)
  | succ fuel ih =>
    intro n mn s v s' hn hbound h
    rw [uniformLoop_succ] at h
    cases hb : bits (clz64 s.numberRange)
        { s with numberRange := (s.numberRange <<< clz64 s.numberRange) % 2 ^ 64
                 numberBuffer := (s.numberBuffer <<< clz64 s.numberRange) % 2 ^ 64 } with
    | exc e t =>
      rw [hb] at h
      simp at h
    | timeout =>
      rw [hb] at h
      simp at h
    | ok b s₂ =>
      rw [hb] at h
      dsimp only at h
      by_cases hacc : (s₂.numberBuffer ||| b) / n < s₂.numberRange / n
      · rw [if_pos hacc] at h
        injection h with h1 h2
        subst h1
        have hig : (s₂.numberBuffer ||| b) % n < n := Nat.mod_lt _ (by omega)
        have hlt : mn + (s₂.numberBuffer ||| b) % n < 2 ^ 64 := by omega
        rw [Nat.mod_eq_of_lt hlt]
        omega
      · rw [if_neg hacc] at h
        exact ih hn hbound h

/-- The rejection loop preserves both the reservoir well-formedness and the
sampler invariant `buffer < range ≤ 2^64 - 1`, does not decrease the
counter, and (on the reject path) keeps `range ≥ 1`. -/
lemma uniformLoop_inv {fuel : Nat} : ∀ {n mn : Nat} {s : RandomState} {v : Nat}
    {s' : RandomState}, Valid s → NumInv s → 1 ≤ n → n < 2 ^ 64 →
    uniformLoop fuel n mn s = .ok v s' →
    Valid s' ∧ NumInv s' ∧ s.counter ≤ s'.counter := by
  induction fuel with
  | zero =>
    intro n mn s v s' hv hinv hn hnlt h
    rw [uniformLoop_zero] at h
    exact absurd h (by simp)
  | succ fuel ih =>
    intro n mn s v s' hv hinv hn hnlt h
    rw [uniformLoop_succ] at h
    cases hb : bits (clz64 s.numberRange)
        { s with numberRange := (s.numberRange <<< clz64 s.numberRange) % 2 ^ 64
                 numberBuffer := (s.numberBuffer <<< clz64 s.numberRange) % 2 ^ 64 } with
    | exc e t =>
      rw [hb] at h
      simp at h
    | timeout =>
      rw [hb] at h
      simp at h
    | ok b s₂ =>
      rw [hb] at h
      dsimp only at h
      obtain ⟨hv₂, hcle, hnr₂, hor, hlt₃, hrlt₃⟩ := topup_inv hv hinv hb
      by_cases hacc : (s₂.numberBuffer ||| b) / n < s₂.numberRange / n
      · rw [if_pos hacc] at h
        injection h with h1 h2
        subst h2
        refine ⟨hv₂, ⟨hacc, ?_⟩, hcle⟩
        show s₂.numberRange / n ≤ 2 ^ 64 - 1
        have := Nat.div_le_self s₂.numberRange n
        omega
      · rw [if_neg hacc] at h
        have hrej : (s₂.numberBuffer ||| b) % n < s₂.numberRange % n := by
          have h1 := (Nat.div_add_mod (s₂.numberBuffer ||| b) n).symm
          have h2 := (Nat.div_add_mod s₂.numberRange n).symm
          have h3 : n * (s₂.numberRange / n) ≤ n * ((s₂.numberBuffer ||| b) / n) :=
            Nat.mul_le_mul_left n (by omega)
          have h4 := hlt₃
          generalize n * ((s₂.numberBuffer ||| b) / n) = P at h1 h3
          generalize n * (s₂.numberRange / n) = Q at h2 h3
          omega
        have hinv2 : NumInv { s₂ with numberRange := s₂.numberRange % n
                                      numberBuffer := (s₂.numberBuffer ||| b) % n } := by
          refine ⟨hrej, ?_⟩
          show s₂.numberRange % n ≤ 2 ^ 64 - 1
          have := Nat.mod_lt s₂.numberRange (show 0 < n by omega)
          omega
        have hnext := @ih n mn
          { s₂ with numberRange := s₂.numberRange % n
                    numberBuffer := (s₂.numberBuffer ||| b) % n } v s'
          hv₂ hinv2 hn hnlt h
        exact ⟨hnext.1, hnext.2.1, le_trans hcle hnext.2.2⟩

/-- With a width-one target (`min = max`) the loop accepts at the first
iteration: fuel 1 suffices and the reject path is never taken. -/
lemma uniformLoop_one_accept {mn : Nat} {s : RandomState} (hv : Valid s)
    (hinv : NumInv s) (hc : s.counter + 66 ≤ 2 ^ 64) (hmn : mn < 2 ^ 64) :
    ∃ s', uniformLoop 1 1 mn s = .ok mn s' := by
  have e1 : (1 : Nat) = 0 + 1 := rfl
  rw [e1, uniformLoop_succ]
  obtain ⟨b, s₂, hb⟩ := @bits_ok_exists (clz64 s.numberRange)
    { s with numberRange := (s.numberRange <<< clz64 s.numberRange) % 2 ^ 64
             numberBuffer := (s.numberBuffer <<< clz64 s.numberRange) % 2 ^ 64 }
    hv (clz64_le _) hc
  rw [hb]
  dsimp only
  obtain ⟨hv₂, hcle, hnr₂, hor, hlt₃, hrlt₃⟩ := topup_inv hv hinv hb
  rw [if_pos (by simpa [Nat.div_one] using hlt₃)]
  refine ⟨{ s₂ with numberRange := s₂.numberRange / 1
                    numberBuffer := (s₂.numberBuffer ||| b) / 1 }, ?_⟩
  rw [Nat.mod_one, Nat.add_zero, Nat.mod_eq_of_lt hmn]

/-- The rejection loop can only throw the counter-overflow `runtime_error`
(the `bits` calls it makes use widths `≤ 64`). -/
lemma uniformLoop_exc_runtime {fuel : Nat} : ∀ {n mn : Nat} {s : RandomState}
    {e : Err} {s' : RandomState}, uniformLoop fuel n mn s = .exc e s' →
    e = .runtimeError "Random counter overflow" := by
  induction fuel with
  | zero =>
    intro n mn s e s' h
    rw [uniformLoop_zero] at h
    exact absurd h (by simp)
  | succ fuel ih =>
    intro n mn s e s' h
    rw [uniformLoop_succ] at h
    cases hb : bits (clz64 s.numberRange)
        { s with numberRange := (s.numberRange <<< clz64 s.numberRange) % 2 ^ 64
                 numberBuffer := (s.numberBuffer <<< clz64 s.numberRange) % 2 ^ 64 } with
    | exc e1 t =>
      rw [hb] at h
      have h' : Res.exc e1 t = Res.exc e s' (α := Nat) := h
      injection h' with h1 h2
      subst h1
      unfold bits at hb
      by_cases h64 : 64 < clz64 s.numberRange
      · exact absurd h64 (by have := clz64_le s.numberRange; omega)
      · rw [if_neg h64] at hb
        exact bitsGo_exc_runtime hb
    | timeout =>
      rw [hb] at h
      exact absurd h (by simp)
    | ok b s₂ =>
      rw [hb] at h
      dsimp only at h
      by_cases hacc : (s₂.numberBuffer ||| b) / n < s₂.numberRange / n
      · rw [if_pos hacc] at h
        exact absurd h (by simp)
      · rw [if_neg hacc] at h
        exact ih h

/-! ### The bits(1) sequence and the upcoming-bit stream -/

lemma bitsOnes_zero (s : RandomState) : bitsOnes 0 s = .ok [] s := rfl

lemma bitsOnes_succ (N : Nat) (s : RandomState) :
    bitsOnes (N + 1) s =
      match bits 1 s with
      | .exc e s' => .exc e s'
      | .timeout => .timeout
      | .ok b s' =>
        match bitsOnes N s' with
        | .ok bs s'' => .ok (b :: bs) s''
        | .exc e s'' => .exc e s''
        | .timeout => .timeout := rfl

/-- The `i`-th of `N` successive `bits(1)` calls returns exactly the `i`-th
upcoming keystream bit, and the sequence advances the stream by `N`. -/
lemma bitsOnes_spec : ∀ {N : Nat} {s : RandomState} {bs : List Nat}
    {s₁ : RandomState}, Valid s → bitsOnes N s = .ok bs s₁ →
    bs = (List.range N).map (upBit s) ∧ Valid s₁ ∧
    ∀ k, upBit s₁ k = upBit s (k + N) := by
  intro N
  induction N with
  | zero =>
    intro s bs s₁ hv h
    rw [bitsOnes_zero] at h
    injection h with h1 h2
    subst h1
    subst h2
    exact ⟨by simp, hv, fun k => by rw [Nat.add_zero]⟩
  | succ N ih =>
    intro s bs s₁ hv h
    rw [bitsOnes_succ] at h
    cases hb1 : bits 1 s with
    | exc e t =>
      rw [hb1] at h
      simp at h
    | timeout =>
      rw [hb1] at h
      simp at h
    | ok b t =>
      rw [hb1] at h
      dsimp only at h
      obtain ⟨hvt, _, _, _, _, hadv⟩ := bits_ok_spec hv (by norm_num) hb1
      have hval : b = upBit s 0 := bits_one_val hv hb1
      cases hbs : bitsOnes N t with
      | exc e t' =>
        rw [hbs] at h
        simp at h
      | timeout =>
        rw [hbs] at h
        simp at h
      | ok bs' t' =>
        rw [hbs] at h
        have h' : Res.ok (b :: bs') t' = Res.ok bs s₁ := h
        injection h' with h1 h2
        subst h1
        subst h2
        obtain ⟨hbs'eq, hvt', hadv'⟩ := ih hvt hbs
        refine ⟨?_, hvt', ?_⟩
        · rw [hbs'eq, hval, List.range_succ_eq_map, List.map_cons, List.map_map]
          congr 1
          apply List.map_congr_left
          intro a _
          show upBit t a = upBit s (a + 1)
          exact hadv a
        · intro k
          rw [hadv' k, hadv (k + N)]
          congr 1

/-! ### List swap and permutation -/

lemma getElem_cons_set_perm : ∀ (t : List α) (j : Nat) (h : j < t.length) (a : α),
    List.Perm (t.get ⟨j, h⟩ :: t.set j a) (a :: t) := by
  intro t
  induction t with
  | nil =>
    intro j h
    simp at h
  | cons x r ih =>
    intro j h a
    cases j with
    | zero =>
      simp only [List.get_cons_zero, List.set_cons_zero]
      exact List.Perm.swap a x r
    | succ j =>
      have h' : j < r.length := by simpa using h
      have e : (x :: r).get ⟨j + 1, h⟩ = r.get ⟨j, h'⟩ := rfl
      rw [e, List.set_cons_succ]
      refine List.Perm.trans (List.Perm.swap x (r.get ⟨j, h'⟩) (r.set j a)) ?_
      refine List.Perm.trans (List.Perm.cons x (ih j h' a)) ?_
      exact List.Perm.swap a x r

lemma set_set_perm : ∀ (l : List α) (i j : Nat) (hi : i < l.length)
    (hj : j < l.length),
    List.Perm ((l.set i (l.get ⟨j, hj⟩)).set j (l.get ⟨i, hi⟩)) l := by
  intro l
  induction l with
  | nil =>
    intro i j hi
    simp at hi
  | cons x t ih =>
    intro i j hi hj
    cases i with
    | zero =>
      cases j with
      | zero =>
        simp only [List.get_cons_zero, List.set_cons_zero]
        exact List.Perm.refl _
      | succ j =>
        have hj' : j < t.length := by simpa using hj
        have e1 : (x :: t).get ⟨j + 1, hj⟩ = t.get ⟨j, hj'⟩ := rfl
        have e2 : (x :: t).get ⟨0, hi⟩ = x := rfl
        rw [e1, e2, List.set_cons_zero, List.set_cons_succ]
        exact getElem_cons_set_perm t j hj' x
    | succ i =>
      have hi' : i < t.length := by simpa using hi
      cases j with
      | zero =>
        have e1 : (x :: t).get ⟨0, hj⟩ = x := rfl
        have e2 : (x :: t).get ⟨i + 1, hi⟩ = t.get ⟨i, hi'⟩ := rfl
        rw [e1, e2, List.set_cons_succ, List.set_cons_zero]
        exact getElem_cons_set_perm t i hi' x
      | succ j =>
        have hj' : j < t.length := by simpa using hj
        have e1 : (x :: t).get ⟨j + 1, hj⟩ = t.get ⟨j, hj'⟩ := rfl
        have e2 : (x :: t).get ⟨i + 1, hi⟩ = t.get ⟨i, hi'⟩ := rfl
        rw [e1, e2, List.set_cons_succ, List.set_cons_succ]
        exact List.Perm.cons x (ih i j hi' hj')

lemma listSwap_perm {l : List α} {i j : Nat} (hi : i < l.length) (hj : j < l.length) :
    List.Perm (listSwap l i j) l := by
  unfold listSwap
  have h1 : l.get? i = some (l.get ⟨i, hi⟩) := List.get?_eq_get hi
  have h2 : l.get? j = some (l.get ⟨j, hj⟩) := List.get?_eq_get hj
  rw [h1, h2]
  exact set_set_perm l i j hi hj

lemma listSwap_length (l : List α) (i j : Nat) :
    (listSwap l i j).length = l.length := by
  unfold listSwap
  cases h1 : l.get? i with
  | none => rfl
  | some a =>
    cases h2 : l.get? j with
    | none => rfl
    | some b => simp

/-! ### Top-level wrappers for the ranged draws and shuffle -/

/-- Range containment for `uniform_uint64` on its uint64 domain. -/
lemma uniform_uint64_mem {fuel mn mx : Nat} {s : RandomState} {v : Nat}
    {s' : RandomState} (hv : Valid s) (hle : mn ≤ mx) (hmx : mx < 2 ^ 64)
    (h : uniform_uint64 fuel mn mx s = .ok v s') : mn ≤ v ∧ v ≤ mx := by
  unfold uniform_uint64 at h
  rw [if_neg (by omega)] at h
  by_cases hsp : mn = 0 ∧ mx = 2 ^ 64 - 1
  · rw [if_pos hsp] at h
    have h1 := bits_lt hv (by norm_num) h
    omega
  · rw [if_neg hsp] at h
    have := uniformLoop_ok_mem (by omega) (by omega : mn + (mx - mn + 1) ≤ 2 ^ 64) h
    omega

/-- Invariant preservation and counter monotonicity for `uniform_uint64`. -/
lemma uniform_uint64_inv {fuel mn mx : Nat} {s : RandomState} {v : Nat}
    {s' : RandomState} (hv : Valid s) (hinv : NumInv s) (hle : mn ≤ mx)
    (hmx : mx < 2 ^ 64) (h : uniform_uint64 fuel mn mx s = .ok v s') :
    Valid s' ∧ NumInv s' ∧ s.counter ≤ s'.counter := by
  unfold uniform_uint64 at h
  rw [if_neg (by omega)] at h
  by_cases hsp : mn = 0 ∧ mx = 2 ^ 64 - 1
  · rw [if_pos hsp] at h
    obtain ⟨hv', hcle, _, hnb, hnr⟩ := bits_ok_spec hv (by norm_num) h
    refine ⟨hv', ⟨?_, ?_⟩, hcle⟩
    · rw [hnb, hnr.1]
      exact hinv.1
    · rw [hnr.1]
      exact hinv.2
  · rw [if_neg hsp] at h
    apply uniformLoop_inv hv hinv (by omega) ?_ h
    by_cases h0 : mn = 0
    · have : mx ≠ 2 ^ 64 - 1 := fun hh => hsp ⟨h0, hh⟩
      omega
    · omega

/-- The `uniform_uint64(0, i)` draw of `shuffle` stays in `[0, i]` and keeps
the invariants whenever `i < 2^64`. -/
lemma uniform0_le {fuel i : Nat} {s : RandomState} {v : Nat} {s' : RandomState}
    (hv : Valid s) (hinv : NumInv s) (hi : i < 2 ^ 64)
    (h : uniform_uint64 fuel 0 i s = .ok v s') :
    v ≤ i ∧ Valid s' ∧ NumInv s' ∧ s.counter ≤ s'.counter := by
  have h1 := uniform_uint64_mem hv (Nat.zero_le i) hi h
  have h2 := uniform_uint64_inv hv hinv (Nat.zero_le i) hi h
  exact ⟨h1.2, h2.1, h2.2.1, h2.2.2⟩

lemma shuffleGo_zero (fuel i : Nat) (l : List α) (s : RandomState) :
    shuffleGo fuel 0 i l s = .ok l s := rfl

lemma shuffleGo_succ (fuel steps i : Nat) (l : List α) (s : RandomState) :
    shuffleGo fuel (steps + 1) i l s =
      match uniform_uint64 fuel 0 i s with
      | .exc e s' => .exc e s'
      | .timeout => .timeout
      | .ok j s' => shuffleGo fuel steps (i + 1) (listSwap l i j) s' := rfl

/-- The shuffle loop yields a permutation of its input and preserves the
generator invariants. -/
lemma shuffleGo_perm {fuel : Nat} : ∀ {steps i : Nat} {l : List α}
    {s : RandomState} {l' : List α} {s' : RandomState}, Valid s → NumInv s →
    steps + i ≤ l.length → l.length ≤ 2 ^ 64 →
    shuffleGo fuel steps i l s = .ok l' s' →
    List.Perm l' l ∧ Valid s' ∧ NumInv s' := by
  intro steps
  induction steps with
  | zero =>
    intro i l s l' s' hv hinv hle hlen h
    rw [shuffleGo_zero] at h
    injection h with h1 h2
    subst h1
    subst h2
    exact ⟨List.Perm.refl l, hv, hinv⟩
  | succ steps ih =>
    intro i l s l' s' hv hinv hle hlen h
    rw [shuffleGo_succ] at h
    cases hu : uniform_uint64 fuel 0 i s with
    | exc e t =>
      rw [hu] at h
      simp at h
    | timeout =>
      rw [hu] at h
      simp at h
    | ok j t =>
      rw [hu] at h
      dsimp only at h
      have hilt : i < l.length := by omega
      obtain ⟨hj, hvt, hinvt, _⟩ := uniform0_le hv hinv (by omega) hu
      have hjlt : j < l.length := by omega
      have hswaplen : (listSwap l i j).length = l.length := listSwap_length l i j
      obtain ⟨hperm, hv', hinv'⟩ := ih hvt hinvt (by omega) (by omega) h
      exact ⟨hperm.trans (listSwap_perm hilt hjlt), hv', hinv'⟩

/-- `shuffle` yields a permutation of its input (for any list whose length
is representable as the uint64 `end - begin` of the C++ code). -/
lemma shuffle_perm_ok {fuel : Nat} {l l' : List α} {s s' : RandomState}
    (hv : Valid s) (hinv : NumInv s) (hlen : l.length ≤ 2 ^ 64)
    (h : shuffle fuel l s = .ok l' s') :
    List.Perm l' l ∧ Valid s' ∧ NumInv s' := by
  unfold shuffle at h
  by_cases h0 : l.length = 0
  · rw [h0] at h
    rw [show (0 : Nat) - 1 = 0 from rfl, shuffleGo_zero] at h
    injection h with h1 h2
    subst h1
    subst h2
    exact ⟨List.Perm.refl l, hv, hinv⟩
  · exact shuffleGo_perm hv hinv (by omega) hlen h

/-! ### Constructor lemmas -/

lemma mkNonce_zero_byte : ∀ {bytes : List Nat} (i acc : Nat),
    (∃ b ∈ bytes, b % 256 = 0) →
    mkNonce bytes i acc = .error (.invalidArgument "0 bytes in problem_name") := by
  intro bytes
  induction bytes with
  | nil =>
    intro i acc h
    simp at h
  | cons b rest ih =>
    intro i acc h
    unfold mkNonce
    by_cases hb : b % 256 = 0
    · rw [if_pos hb]
    · rw [if_neg hb]
      apply ih
      rcases h with ⟨c, hc, hc0⟩
      rcases List.mem_cons.mp hc with rfl | hc'
      · exact absurd hc0 hb
      · exact ⟨c, hc', hc0⟩

lemma mkNonce_ok : ∀ {bytes : List Nat} (i acc : Nat),
    (∀ b ∈ bytes, b % 256 ≠ 0) → ∃ m, mkNonce bytes i acc = .ok m := by
  intro bytes
  induction bytes with
  | nil =>
    intro i acc _
    exact ⟨acc, rfl⟩
  | cons b rest ih =>
    intro i acc h
    unfold mkNonce
    rw [if_neg (h b (List.mem_cons_self b rest))]
    exact ih _ _ (fun c hc => h c (List.mem_cons_of_mem b hc))

lemma Res.map_ok {α β : Type} {f : α → β} {r : Res α} {v : β} {s' : RandomState}
    (h : Res.map f r = .ok v s') : ∃ v0, r = .ok v0 s' ∧ v = f v0 := by
  cases r with
  | ok a t =>
    have h' : Res.ok (f a) t = Res.ok v s' := h
    injection h' with h1 h2
    subst h2
    exact ⟨a, rfl, h1.symm⟩
  | exc e t => exact absurd h (by simp [Res.map])
  | timeout => exact absurd h (by simp [Res.map])

/-! ### The claims -/

/-- C1: for every pair of uint64 values with `min ≤ max` and every
well-formed generator state, every value returned by
`uniform_uint64(min, max)` lies in the inclusive range `[min, max]`; and
when `min = max` the call always returns that value, accepting on the very
first iteration of the rejection loop (fuel 1 suffices, so the rejection
path is never consumed), whenever the stream is not at the
astronomically-remote counter-overflow point. -/
theorem c1_uniform_uint64_range (mn mx : Nat) (s : RandomState) (hv : Valid s)
    (hinv : NumInv s) (hle : mn ≤ mx) (hmx : mx < 2 ^ 64) :
    (∀ fuel v s', uniform_uint64 fuel mn mx s = .ok v s' → mn ≤ v ∧ v ≤ mx) ∧
    (mn = mx → s.counter + 66 ≤ 2 ^ 64 →
      ∃ s', uniform_uint64 1 mn mx s = .ok mn s') := by
  constructor
  · intro fuel v s' h
    exact uniform_uint64_mem hv hle hmx h
  · intro heq hc
    subst heq
    unfold uniform_uint64
    rw [if_neg (by omega)]
    rw [if_neg (by omega : ¬(mn = 0 ∧ mn = 2 ^ 64 - 1))]
    have e : mn - mn + 1 = 1 := by omega
    rw [e]
    exact uniformLoop_one_accept hv hinv hc (by omega)

/-- Witness for C1 at `min = max = 5` on a fresh generator. -/
theorem c1_uniform_uint64_range_witness :
    ∃ s', uniform_uint64 1 5 5 (initState 0) = .ok 5 s' :=
  (c1_uniform_uint64_range 5 5 (initState 0) (by decide) (by decide)
    (by decide) (by norm_num)).2 rfl (by decide)

/-- C3 counterexample: on a fresh generator (`Random("", 0)`), a single
`bits(33)` call returns 4451762026, while concatenating bit-for-bit the 33
values returned by 33 successive `bits(1)` calls from the same state gives
5837974082 (first call most significant) or 2225881013 (first call least
significant) — neither equals the `bits(33)` value, refuting the claimed
concatenation identity at `N = 33 ≤ 64` (`bits` packs earlier-consumed
word chunks more significant but serves each word least-significant bit
first, so the per-bit order is not a single concatenation). -/
theorem c3_bit_concat_counterexample :
    mkRandom [] 0 = .ok (initState 0) ∧
    (bits 33 (initState 0)).toOption.map Prod.fst = some 4451762026 ∧
    (bitsOnes 33 (initState 0)).toOption.map (fun p => msbConcat p.1) =
      some 5837974082 ∧
    (bitsOnes 33 (initState 0)).toOption.map (fun p => lsbConcat p.1) =
      some 2225881013 ∧
    (bits 33 (initState 0)).toOption.map Prod.fst ≠
      (bitsOnes 33 (initState 0)).toOption.map (fun p => msbConcat p.1) ∧
    (bits 33 (initState 0)).toOption.map Prod.fst ≠
      (bitsOnes 33 (initState 0)).toOption.map (fun p => lsbConcat p.1) := by
  refine ⟨rfl, by decide, by decide, by decide, by decide, by decide⟩

/-- C3 (amended): from every well-formed generator state, the `i`-th of `N`
successive `bits(1)` calls returns exactly the `i`-th upcoming raw
keystream bit (keystream words are consumed least-significant bit first,
in block order), and both the `N` `bits(1)` calls and a single `bits(N)`
call (`N ≤ 64`) consume exactly the same `N` keystream bits, advancing the
upcoming-bit stream by exactly `N`; `bits(N)` however packs those bits into
its result in word-aligned chunks rather than by uniform bit-for-bit
concatenation, so the concatenated value can differ from `bits(N)` (see
the counterexample). -/
theorem c3_bits_stream_amended (N : Nat) (s : RandomState) (hv : Valid s)
    (hN : N ≤ 64) :
    (∀ bs s₁, bitsOnes N s = .ok bs s₁ →
      bs = (List.range N).map (upBit s) ∧ ∀ k, upBit s₁ k = upBit s (k + N)) ∧
    (∀ v s₂, bits N s = .ok v s₂ → ∀ k, upBit s₂ k = upBit s (k + N)) := by
  constructor
  · intro bs s₁ h
    obtain ⟨h1, _, h2⟩ := bitsOnes_spec hv h
    exact ⟨h1, h2⟩
  · intro v s₂ h
    exact (bits_ok_spec hv hN h).2.2.2.2.2

/-- Witness for the amended C3 at `N = 2` on a fresh generator. -/
theorem c3_bits_stream_amended_witness :
    ∃ bs s₁, bitsOnes 2 (initState 0) = .ok bs s₁ ∧
      bs = (List.range 2).map (upBit (initState 0)) := by
  have hne : (bitsOnes 2 (initState 0)).toOption.isSome = true := by decide
  cases hbs : bitsOnes 2 (initState 0) with
  | ok bs s₁ =>
    exact ⟨bs, s₁, rfl,
      ((c3_bits_stream_amended 2 (initState 0) (by decide) (by norm_num)).1
        bs s₁ hbs).1⟩
  | exc e t =>
    rw [hbs] at hne
    simp [Res.toOption] at hne
  | timeout =>
    rw [hbs] at hne
    simp [Res.toOption] at hne

/-- C4: the sampler state always satisfies
`0 ≤ m_number_buffer < m_number_range ≤ 2^64 - 1` (hence
`m_number_range ≥ 1`, and `__builtin_clzll` — applied only to
`m_number_range` — is never invoked with argument 0): the invariant holds
at construction (`range = 1`, `value = 0`) and is preserved, together with
reservoir well-formedness, by every completed ranged-draw operation and by
`bits`. -/
theorem c4_sampler_state_invariant :
    (∀ t, NumInv (initState t) ∧ (initState t).numberRange = 1 ∧
      (initState t).numberBuffer = 0) ∧
    (∀ s : RandomState, NumInv s → 1 ≤ s.numberRange) ∧
    (∀ fuel mn mx s v s', Valid s → NumInv s → mn ≤ mx → mx < 2 ^ 64 →
      uniform_uint64 fuel mn mx s = .ok v s' → Valid s' ∧ NumInv s') ∧
    (∀ fuel (mn mx : Int) s v s', Valid s → NumInv s → mn ≤ mx →
      uniform_int64 fuel mn mx s = .ok v s' → Valid s' ∧ NumInv s') ∧
    (∀ fuel mn mx s v s', Valid s → NumInv s → mn ≤ mx → mx < 2 ^ 64 →
      uniform_uint fuel mn mx s = .ok v s' → Valid s' ∧ NumInv s') ∧
    (∀ fuel (mn mx : Int) s v s', Valid s → NumInv s → mn ≤ mx →
      uniform_int fuel mn mx s = .ok v s' → Valid s' ∧ NumInv s') ∧
    (∀ n s v s', Valid s → NumInv s → bits n s = .ok v s' →
      Valid s' ∧ NumInv s') := by
  have hu64 : ∀ fuel mn mx s v s', Valid s → NumInv s → mn ≤ mx → mx < 2 ^ 64 →
      uniform_uint64 fuel mn mx s = .ok v s' → Valid s' ∧ NumInv s' := by
    intro fuel mn mx s v s' hv hinv hle hmx h
    obtain ⟨hv', hinv', _⟩ := uniform_uint64_inv hv hinv hle hmx h
    exact ⟨hv', hinv'⟩
  have hi64 : ∀ fuel (mn mx : Int) s v s', Valid s → NumInv s → mn ≤ mx →
      uniform_int64 fuel mn mx s = .ok v s' → Valid s' ∧ NumInv s' := by
    intro fuel mn mx s v s' hv hinv hle h
    unfold uniform_int64 at h
    rw [if_neg (not_lt.mpr hle)] at h
    obtain ⟨v0, h0, _⟩ := Res.map_ok h
    exact hu64 _ _ _ _ _ _ hv hinv (Nat.zero_le _)
      (Nat.mod_lt _ (by norm_num)) h0
  refine ⟨fun t => ⟨⟨Nat.zero_lt_one, (by norm_num : (1:Nat) ≤ 2 ^ 64 - 1)⟩, rfl, rfl⟩,
    fun s hinv => by have := hinv.1; omega, hu64, hi64, ?_, ?_, ?_⟩
  · intro fuel mn mx s v s' hv hinv hle hmx h
    unfold uniform_uint at h
    obtain ⟨v0, h0, _⟩ := Res.map_ok h
    exact hu64 _ _ _ _ _ _ hv hinv hle hmx h0
  · intro fuel mn mx s v s' hv hinv hle h
    unfold uniform_int at h
    obtain ⟨v0, h0, _⟩ := Res.map_ok h
    exact hi64 _ _ _ _ _ _ hv hinv hle h0
  · intro n s v s' hv hinv h
    by_cases hn : n ≤ 64
    · obtain ⟨hv', _, _, hnb, hnr⟩ := bits_ok_spec hv hn h
      refine ⟨hv', ?_, ?_⟩
      · rw [hnb, hnr.1]
        exact hinv.1
      · rw [hnr.1]
        exact hinv.2
    · unfold bits at h
      rw [if_pos (by omega)] at h
      exact absurd h (by simp)

/-- Witness for C4 on a fresh generator: the invariant holds initially and
is preserved by a concrete `uniform_uint64(3, 9)` call. -/
theorem c4_sampler_state_invariant_witness :
    NumInv (initState 7) ∧
    (∃ v s', uniform_uint64 9 3 9 (initState 7) = .ok v s' ∧
      Valid s' ∧ NumInv s') := by
  have h0 := (c4_sampler_state_invariant.1 7).1
  have hne : (uniform_uint64 9 3 9 (initState 7)).toOption.isSome = true := by decide
  refine ⟨h0, ?_⟩
  cases hu : uniform_uint64 9 3 9 (initState 7) with
  | ok v s' =>
    have := c4_sampler_state_invariant.2.2.1 9 3 9 (initState 7) v s'
      (by decide) (by decide) (by norm_num) (by norm_num) hu
    exact ⟨v, s', rfl, this⟩
  | exc e t =>
    rw [hu] at hne
    simp [Res.toOption] at hne
  | timeout =>
    rw [hu] at hne
    simp [Res.toOption] at hne

/-- C5: the block counter starts at 0 and never decreases across a
successful `bits` call (each keystream block is generated at the
pre-increment counter value, so along any succeeding run no counter value
is reused); and when the 64-bit counter would wrap past its domain, the
very call that needs the next block aborts with the unrecoverable
`runtime_error("Random counter overflow")` and produces no value. -/
theorem c5_counter_monotone_wrap_abort :
    (∀ t, (initState t).counter = 0) ∧
    (∀ n s v s', Valid s → bits n s = .ok v s' → s.counter ≤ s'.counter) ∧
    (∀ n s, s.wordBufferNext = 16 → s.counter = 2 ^ 64 - 1 → s.numBits ≤ n →
      n ≤ 64 →
      ∃ t, bits n s = .exc (.runtimeError "Random counter overflow") t) := by
  refine ⟨fun t => rfl, ?_, ?_⟩
  · intro n s v s' hv h
    by_cases hn : n ≤ 64
    · exact (bits_ok_spec hv hn h).2.1
    · unfold bits at h
      rw [if_pos (by omega)] at h
      exact absurd h (by simp)
  · intro n s h16 hc hle hn
    unfold bits
    rw [if_neg (not_lt.mpr hn)]
    have e : n + 2 = (n + 1) + 1 := rfl
    rw [e, bitsGo_succ, if_pos hle, refillWords_wrap h16 hc]
    exact ⟨_, rfl⟩

/-- Witness for C5: the abort fires on a generator whose counter sits at
`2^64 - 1` with an exhausted word buffer, and the counter is monotone
across a concrete successful `bits(1)` call on a fresh generator. -/
theorem c5_counter_monotone_wrap_abort_witness :
    (∃ t, bits 0 { initState 3 with counter := 2 ^ 64 - 1 } =
      .exc (.runtimeError "Random counter overflow") t) ∧
    (∃ v s', bits 1 (initState 0) = .ok v s' ∧
      (initState 0).counter ≤ s'.counter) := by
  constructor
  · exact c5_counter_monotone_wrap_abort.2.2 0 _ rfl rfl (by decide) (by decide)
  · have hne : (bits 1 (initState 0)).toOption.isSome = true := by decide
    cases hb : bits 1 (initState 0) with
    | ok v s' =>
      exact ⟨v, s', rfl,
        c5_counter_monotone_wrap_abort.2.1 1 (initState 0) v s' (by decide) hb⟩
    | exc e t =>
      rw [hb] at hne
      simp [Res.toOption] at hne
    | timeout =>
      rw [hb] at hne
      simp [Res.toOption] at hne

/-- C6: each operation raises `invalid_argument` exactly at the call that
violates its precondition — construction for a label longer than 4 bytes
or containing a zero byte (and succeeds otherwise); `bits(n)` for
`n > 64`; every ranged draw for `min > max` — and a failing call on an
existing generator leaves its state unchanged (the thrown error carries
exactly the pre-call state, the checks preceding every mutation); when the
precondition holds, no `invalid_argument` is ever raised (the only other
throw is the counter-overflow `runtime_error`). -/
theorem c6_invalid_argument_errors :
    (∀ (name : List Nat) t, name.length > 4 →
      mkRandom name t = .error (.invalidArgument "problem_name too long")) ∧
    (∀ (name : List Nat) t, name.length ≤ 4 → (∃ b ∈ name, b % 256 = 0) →
      mkRandom name t = .error (.invalidArgument "0 bytes in problem_name")) ∧
    (∀ (name : List Nat) t, name.length ≤ 4 → (∀ b ∈ name, b % 256 ≠ 0) →
      ∃ st, mkRandom name t = .ok st) ∧
    (∀ n s, 64 < n → bits n s = .exc (.invalidArgument "n > 64") s) ∧
    (∀ n s e s', n ≤ 64 → bits n s = .exc e s' →
      e = .runtimeError "Random counter overflow") ∧
    (∀ fuel mn mx s, mx < mn →
      uniform_uint64 fuel mn mx s = .exc (.invalidArgument "min > max") s) ∧
    (∀ fuel mn mx s e s', mn ≤ mx → uniform_uint64 fuel mn mx s = .exc e s' →
      e = .runtimeError "Random counter overflow") ∧
    (∀ fuel (mn mx : Int) s, mx < mn →
      uniform_int64 fuel mn mx s = .exc (.invalidArgument "min > max") s) ∧
    (∀ fuel (mn mx : Int) s, mx < mn →
      uniform_int fuel mn mx s = .exc (.invalidArgument "min > max") s) ∧
    (∀ fuel mn mx s, mx < mn →
      uniform_uint fuel mn mx s = .exc (.invalidArgument "min > max") s) := by
  refine ⟨?_, ?_, ?_, ?_, ?_, ?_, ?_, ?_, ?_, ?_⟩
  · intro name t h
    unfold mkRandom
    rw [if_pos h]
  · intro name t hlen hzero
    unfold mkRandom
    rw [if_neg (by omega), mkNonce_zero_byte 0 (t % 2 ^ 32) hzero]
    rfl
  · intro name t hlen hnz
    obtain ⟨m, hm⟩ := mkNonce_ok 0 (t % 2 ^ 32) hnz
    refine ⟨initState m, ?_⟩
    unfold mkRandom
    rw [if_neg (by omega), hm]
    rfl
  · intro n s h
    unfold bits
    rw [if_pos h]
  · intro n s e s' hn h
    unfold bits at h
    rw [if_neg (not_lt.mpr hn)] at h
    exact bitsGo_exc_runtime h
  · intro fuel mn mx s h
    unfold uniform_uint64
    rw [if_pos h]
  · intro fuel mn mx s e s' hle h
    unfold uniform_uint64 at h
    rw [if_neg (by omega)] at h
    by_cases hsp : mn = 0 ∧ mx = 2 ^ 64 - 1
    · rw [if_pos hsp] at h
      unfold bits at h
      rw [if_neg (by norm_num)] at h
      exact bitsGo_exc_runtime h
    · rw [if_neg hsp] at h
      exact uniformLoop_exc_runtime h
  · intro fuel mn mx s h
    unfold uniform_int64
    rw [if_pos h]
  · intro fuel mn mx s h
    unfold uniform_int uniform_int64
    rw [if_pos h]
    rfl
  · intro fuel mn mx s h
    unfold uniform_uint uniform_uint64
    rw [if_pos h]
    rfl

/-- Witness for C6: each error condition exercised at a concrete input
("foo" = bytes 102,111,111 succeeding, the others failing), with the
carried state equal to the untouched pre-call state. -/
theorem c6_invalid_argument_errors_witness :
    mkRandom [1, 1, 1, 1, 1] 0 =
      .error (.invalidArgument "problem_name too long") ∧
    mkRandom [1, 0] 0 = .error (.invalidArgument "0 bytes in problem_name") ∧
    (∃ st, mkRandom [102, 111, 111] 123 = .ok st) ∧
    bits 65 (initState 0) = .exc (.invalidArgument "n > 64") (initState 0) ∧
    uniform_uint64 5 7 3 (initState 0) =
      .exc (.invalidArgument "min > max") (initState 0) ∧
    uniform_int64 5 7 3 (initState 0) =
      .exc (.invalidArgument "min > max") (initState 0) ∧
    uniform_int 5 7 3 (initState 0) =
      .exc (.invalidArgument "min > max") (initState 0) ∧
    uniform_uint 5 7 3 (initState 0) =
      .exc (.invalidArgument "min > max") (initState 0) :=
  ⟨c6_invalid_argument_errors.1 [1, 1, 1, 1, 1] 0 (by decide),
   c6_invalid_argument_errors.2.1 [1, 0] 0 (by decide) (by decide),
   c6_invalid_argument_errors.2.2.1 [102, 111, 111] 123 (by decide) (by decide),
   c6_invalid_argument_errors.2.2.2.1 65 (initState 0) (by decide),
   c6_invalid_argument_errors.2.2.2.2.2.1 5 7 3 (initState 0) (by decide),
   c6_invalid_argument_errors.2.2.2.2.2.2.2.1 5 7 3 (initState 0) (by decide),
   c6_invalid_argument_errors.2.2.2.2.2.2.2.2.1 5 7 3 (initState 0) (by decide),
   c6_invalid_argument_errors.2.2.2.2.2.2.2.2.2 5 7 3 (initState 0) (by decide)⟩

/-- C7: `shuffle` — classic forward Fisher–Yates drawing, for each `i` from
1 to `n - 1`, `j = uniform_uint64(0, i)` and exchanging positions `i` and
`j` — always produces a permutation of the original sequence (the same
multiset of elements), for every input length including 0 and 1 (every
length expressible as the uint64 iterator difference of the C++ code). -/
theorem c7_shuffle_permutation {α : Type} (fuel : Nat) (l : List α)
    (s : RandomState) (hv : Valid s) (hinv : NumInv s)
    (hlen : l.length ≤ 2 ^ 64) :
    ∀ l' s', shuffle fuel l s = .ok l' s' → List.Perm l' l := by
  intro l' s' h
  exact (shuffle_perm_ok hv hinv hlen h).1

/-- Witness for C7: a concrete three-element shuffle on a fresh generator
returns a permutation of the input. -/
theorem c7_shuffle_permutation_witness :
    ∃ l' s', shuffle 5 [10, 20, 30] (initState 0) = .ok l' s' ∧
      List.Perm l' [10, 20, 30] := by
  have hne : (shuffle 5 [10, 20, 30] (initState 0)).toOption.isSome = true := by
    decide
  cases hs : shuffle 5 [10, 20, 30] (initState 0) with
  | ok l' s' =>
    exact ⟨l', s', rfl,
      c7_shuffle_permutation 5 [10, 20, 30] (initState 0) (by decide) (by decide)
        (by norm_num) l' s' hs⟩
  | exc e t =>
    rw [hs] at hne
    simp [Res.toOption] at hne
  | timeout =>
    rw [hs] at hne
    simp [Res.toOption] at hne

/-- C8 counterexample: `bits(0)` on a fresh generator (`Random("", 0)`)
completes normally yet leaves `m_num_bits = 32`, outside the claimed 0–31
range: on an empty reservoir the `while (n >= m_num_bits)` loop runs once
even for `n = 0`, loading a whole fresh word none of whose bits are
served. -/
theorem c8_numbits_counterexample :
    mkRandom [] 0 = .ok (initState 0) ∧
    (bits 0 (initState 0)).toOption.map (fun p => p.2.numBits) = some 32 := by
  exact ⟨rfl, by decide⟩

/-- C8 (amended): the bit reservoir's count of remaining valid bits starts
at 0 (empty) at construction and lies in 0–32 after every completed
operation on the generator — the value 32 (not covered by the claimed
0–31) occurs exactly when a call ends having just loaded a fresh keystream
word without serving any of its bits, as in `bits(0)` or `bits(32)` on an
empty reservoir; the count never exceeds 32. -/
theorem c8_numbits_amended :
    (∀ t, (initState t).numBits = 0) ∧
    (∀ n s v s', Valid s → bits n s = .ok v s' → s'.numBits ≤ 32) ∧
    (∀ fuel mn mx s v s', Valid s → NumInv s → mn ≤ mx → mx < 2 ^ 64 →
      uniform_uint64 fuel mn mx s = .ok v s' → s'.numBits ≤ 32) ∧
    (∀ fuel (l l' : List Nat) s s', Valid s → NumInv s → l.length ≤ 2 ^ 64 →
      shuffle fuel l s = .ok l' s' → s'.numBits ≤ 32) := by
  refine ⟨fun t => rfl, ?_, ?_, ?_⟩
  · intro n s v s' hv h
    by_cases hn : n ≤ 64
    · exact (bits_ok_spec hv hn h).1.1
    · unfold bits at h
      rw [if_pos (by omega)] at h
      exact absurd h (by simp)
  · intro fuel mn mx s v s' hv hinv hle hmx h
    exact (uniform_uint64_inv hv hinv hle hmx h).1.1
  · intro fuel l l' s s' hv hinv hlen h
    exact (shuffle_perm_ok hv hinv hlen h).2.1.1

/-- Witness for the amended C8: a fresh generator has count 0, and after a
completed `bits(7)` call the count is at most 32 (it is in fact 25). -/
theorem c8_numbits_amended_witness :
    (initState 0).numBits = 0 ∧
    (∃ v s', bits 7 (initState 0) = .ok v s' ∧ s'.numBits ≤ 32) := by
  refine ⟨c8_numbits_amended.1 0, ?_⟩
  have hne : (bits 7 (initState 0)).toOption.isSome = true := by decide
  cases hb : bits 7 (initState 0) with
  | ok v s' =>
    exact ⟨v, s', rfl, c8_numbits_amended.2.1 7 (initState 0) v s' (by decide) hb⟩
  | exc e t =>
    rw [hb] at hne
    simp [Res.toOption] at hne
  | timeout =>
    rw [hb] at hne
    simp [Res.toOption] at hne

/-- C9: for every well-formed generator state, a completed `bits(0)` call
returns 0 and leaves the position of the stream in the abstract sequence
of generated bits unchanged: every upcoming keystream bit after the call
equals the corresponding upcoming bit before it (the internal word cursor
may advance, but only into the reservoir, consuming no stream position);
and away from the counter-overflow point the call always completes. -/
theorem c9_bits_zero_identity (s : RandomState) (hv : Valid s) :
    (∀ v s', bits 0 s = .ok v s' → v = 0 ∧ ∀ k, upBit s' k = upBit s k) ∧
    (s.counter + 66 ≤ 2 ^ 64 → ∃ s', bits 0 s = .ok 0 s') := by
  constructor
  · intro v s' h
    have h1 := bits_lt hv (by norm_num) h
    have h2 := (bits_ok_spec hv (by norm_num) h).2.2.2.2.2
    rw [pow_zero] at h1
    refine ⟨by omega, fun k => ?_⟩
    have := h2 k
    rwa [Nat.add_zero] at this
  · intro hc
    obtain ⟨v, s', h⟩ := @bits_ok_exists 0 s hv (by norm_num) hc
    have h1 := bits_lt hv (by norm_num) h
    rw [pow_zero] at h1
    have hv0 : v = 0 := by omega
    exact ⟨s', hv0 ▸ h⟩

/-- Witness for C9 on a fresh generator. -/
theorem c9_bits_zero_identity_witness :
    ∃ s', bits 0 (initState 0) = .ok 0 s' :=
  (c9_bits_zero_identity (initState 0) (by decide)).2 (by decide)

/-- C10: the nonce derivation is not injective — the distinct valid
constructions `Random("\x01", 0)` (one byte 0x01, test id 0) and
`Random("", 16)` (empty label, test id 16) produce identical initial
generator states (nonce 16), hence generators whose output is identical
for every sequence of operations. -/
theorem c10_nonce_collision :
    mkRandom [1] 0 = mkRandom [] 16 ∧ mkRandom [1] 0 = .ok (initState 16) ∧
    ([1] : List Nat) ≠ [] :=
  ⟨rfl, rfl, by decide⟩
